import Mathlib

/-!
Verification of the SpringChatPy PDF ingestion pipeline.

Shallow embedding of the chunking, heading-classification, outline-building
and embedding-attachment code:
  * `spring_chat_py/embeddings/chunks_extractor.py`
  * `spring_chat_py/embeddings/embed_chunks.py`
  * `spring_chat_py/designing_ai/extract_designing_ai.py` (and `..._ai2.py`)
  * `spring_chat_py/extract/pdf_outlines.py`

Font sizes and coordinates are modelled as rationals; strings are modelled by
Lean `String` over their character lists (ASCII scope for the classifier
regexes, which in the source are applied to ASCII-pattern matches).
-/

namespace SpringChat

/-- Python whitespace for `str.strip` and the regex class `\s` (ASCII scope). -/
def isPyWs (c : Char) : Bool :=
  c = ' ' || c = '\t' || c = '\n' || c = '\r' || c = Char.ofNat 11 || c = Char.ofNat 12

/-- Python word character (regex `\w`, ASCII scope). -/
def isWordChar (c : Char) : Bool :=
  c.isAlphanum || c = '_'

/-- `str.strip()` on a character list. -/
def pyStripList (l : List Char) : List Char :=
  ((l.dropWhile isPyWs).reverse.dropWhile isPyWs).reverse

/-- `str.strip()`. -/
def pyStrip (s : String) : String :=
  String.mk (pyStripList s.data)

/-- `"\n".join(parts)`. -/
def joinNL : List String → String
  | [] => ""
  | [x] => x
  | x :: xs => x ++ "\n" ++ joinNL xs

/-- Python `s[-k:]` for `k > 0`: the last `k` characters (whole string if shorter). -/
def takeRightStr (k : Nat) (s : String) : String :=
  String.mk (s.data.drop (s.data.length - k))

/-- Python `s[a:b]` for `a ≤ b`. -/
def strSlice (s : String) (a b : Nat) : String :=
  String.mk ((s.data.drop a).take (b - a))

/-- Matcher for the tail of `_HYPHEN_LINEBREAK_RE` after a word char:
`-\s*\n\s*(\w)`.  Returns the second word char and the remainder after it. -/
def hyphenBreakTail : List Char → Option (Char × List Char)
  | '-' :: t =>
    let ws := t.takeWhile isPyWs
    let rest := t.dropWhile isPyWs
    if ws.contains '\n' then
      match rest with
      | d :: t' => if isWordChar d then some (d, t') else none
      | [] => none
    else none
  | _ => none

/-- `_dehyphenate`: substitute `(\w)-\s*\n\s*(\w)` by `\1\2`, scanning left to
right and resuming after each match (fuelled recursion; the fuel is always
sufficient because every step consumes at least one character). -/
def dehyphAux : Nat → List Char → List Char
  | 0, l => l
  | _ + 1, [] => []
  | fuel + 1, c :: rest =>
    if isWordChar c then
      match hyphenBreakTail rest with
      | some (d, rest') => c :: d :: dehyphAux fuel rest'
      | none => c :: dehyphAux fuel rest
    else c :: dehyphAux fuel rest

def dehyph (l : List Char) : List Char :=
  dehyphAux l.length l

/-- `_WS_RE.sub(" ", ·)`: collapse runs of spaces/tabs to one space (fuelled;
each step consumes at least one character, so `l.length` fuel suffices). -/
def collapseSpaceTabAux : Nat → List Char → List Char
  | 0, l => l
  | _ + 1, [] => []
  | fuel + 1, c :: rest =>
    if c = ' ' || c = '\t' then
      ' ' :: collapseSpaceTabAux fuel (rest.dropWhile (fun d => d = ' ' || d = '\t'))
    else c :: collapseSpaceTabAux fuel rest

def collapseSpaceTab (l : List Char) : List Char :=
  collapseSpaceTabAux l.length l

/-- `re.sub(r"\n{3,}", "\n\n", ·)`: collapse runs of three or more newlines
(fuelled; each step consumes at least one character). -/
def collapseNl3Aux : Nat → List Char → List Char
  | 0, l => l
  | _ + 1, [] => []
  | fuel + 1, c :: rest =>
    if c = '\n' then
      let run := 1 + (rest.takeWhile (· = '\n')).length
      let rest' := rest.dropWhile (· = '\n')
      (if run ≥ 3 then ['\n', '\n'] else List.replicate run '\n') ++ collapseNl3Aux fuel rest'
    else c :: collapseNl3Aux fuel rest

def collapseNl3 (l : List Char) : List Char :=
  collapseNl3Aux l.length l

/-- `chunks_extractor._normalize`: drop soft hyphens, de-hyphenate line breaks,
turn `\r` into `\n`, collapse space/tab runs, collapse 3+ newlines, strip. -/
def normalizeCE (s : String) : String :=
  let l := s.data.filter (· ≠ Char.ofNat 0xAD)
  let l := dehyph l
  let l := l.map (fun c => if c = '\r' then '\n' else c)
  let l := collapseSpaceTab l
  let l := collapseNl3 l
  String.mk (pyStripList l)

/-! ## Blocks and chunks (`chunks_extractor.py`) -/

/-- A paragraph/heading block as assembled in `extract_chunks_from_pdf`:
`text` plus the metadata keys (`source_file`, `page`, `section`, `is_heading`). -/
structure Block where
  text : String
  sourceFile : String := ""
  page : Nat := 0
  sectionTitle : Option String := none
  isHeading : Bool := false
deriving DecidableEq

/-- `{k: v for k, v in b.items() if k != "text"}`. -/
def blockMeta (b : Block) : Block :=
  { b with text := "" }

/-- An output chunk record: the inherited metadata, the normalized text, and
the `chunk_index` stamped by `extract_chunks_from_pdf`. -/
structure Chunk where
  meta : Block
  text : String
  chunkIndex : Nat := 0
deriving DecidableEq

/-- The mutable locals of `_split_into_chunks`: emitted `chunks`, the current
accumulator `cur`, its metadata `cur_meta` and the running length `cur_len`. -/
structure SplitState where
  chunks : List Chunk
  cur : List String
  curMeta : Option Block
  curLen : Nat

/-- `flush()` in `_split_into_chunks`: emit `_normalize("\n".join(cur))` if
non-empty, then reset the accumulator. -/
def flushState (st : SplitState) : SplitState :=
  match st.cur with
  | [] => st
  | _ :: _ =>
    let text := normalizeCE (joinNL st.cur)
    let chunks' :=
      if text ≠ "" then
        st.chunks ++ [{ meta := st.curMeta.getD { text := "" }, text := text }]
      else st.chunks
    { chunks := chunks', cur := [], curMeta := none, curLen := 0 }

/-- The body of the `for b in blocks` loop of `_split_into_chunks`. -/
def splitStep (maxChars overlapChars : Nat) (st : SplitState) (b : Block) : SplitState :=
  let t := pyStrip b.text
  if t = "" then st
  else if b.isHeading then
    let st1 := flushState st
    { st1 with curMeta := some (blockMeta b), cur := [t], curLen := t.length }
  else
    let st1 := if st.curMeta.isNone then { st with curMeta := some (blockMeta b) } else st
    if st1.curLen + t.length + 2 > maxChars then
      if overlapChars > 0 && !st1.cur.isEmpty then
        let joined := joinNL st1.cur
        let tail := takeRightStr overlapChars joined
        let st2 := flushState st1
        { st2 with curMeta := some (blockMeta b), cur := [tail, t],
                   curLen := tail.length + t.length }
      else
        let st2 := flushState st1
        { st2 with curMeta := some (blockMeta b), cur := [t], curLen := t.length }
    else
      { st1 with cur := st1.cur ++ [t], curLen := st1.curLen + t.length + 2 }

/-- `_split_into_chunks(blocks, max_chars, overlap_chars)`. -/
def splitIntoChunks (blocks : List Block) (maxChars overlapChars : Nat) : List Chunk :=
  (flushState (blocks.foldl (splitStep maxChars overlapChars) ⟨[], [], none, 0⟩)).chunks

/-! The raw-accumulator companion of `_split_into_chunks`: it runs the same
control flow but records, for each flush of a non-empty accumulator, the
un-normalized joined accumulator text `"\n".join(cur)`.  The real splitter's
chunk texts are exactly the normalized non-empty images of this trace. -/

structure RawState where
  raws : List String
  cur : List String
  curLen : Nat

def rawFlush (st : RawState) : RawState :=
  match st.cur with
  | [] => st
  | _ :: _ => { raws := st.raws ++ [joinNL st.cur], cur := [], curLen := 0 }

def rawStep (maxChars overlapChars : Nat) (st : RawState) (b : Block) : RawState :=
  let t := pyStrip b.text
  if t = "" then st
  else if b.isHeading then
    let st1 := rawFlush st
    { st1 with cur := [t], curLen := t.length }
  else
    if st.curLen + t.length + 2 > maxChars then
      if overlapChars > 0 && !st.cur.isEmpty then
        let joined := joinNL st.cur
        let tail := takeRightStr overlapChars joined
        let st2 := rawFlush st
        { st2 with cur := [tail, t], curLen := tail.length + t.length }
      else
        let st2 := rawFlush st
        { st2 with cur := [t], curLen := t.length }
    else
      { st with cur := st.cur ++ [t], curLen := st.curLen + t.length + 2 }

/-- The un-normalized accumulator texts flushed by `_split_into_chunks`. -/
def rawChunks (blocks : List Block) (maxChars overlapChars : Nat) : List String :=
  (rawFlush (blocks.foldl (rawStep maxChars overlapChars) ⟨[], [], 0⟩)).raws

/-- The overlap law at the accumulator level: the last `k` characters of the
earlier text are a prefix of the later text. -/
def PrefRel (k : Nat) (a b : String) : Prop :=
  List.isPrefixOf (takeRightStr k a).data b.data = true

/-- Invariant of the raw splitter state for streams of body blocks: the flushed
raw texts form a chain under `PrefRel k`, flushes only happen once the
accumulator has been seeded, and the pending accumulator extends the last
flushed text's `k`-character tail. -/
def RawInv (k : Nat) (sr : RawState) : Prop :=
  List.Chain' (PrefRel k) sr.raws ∧
  (sr.cur = [] → sr.raws = []) ∧
  (∀ last, sr.raws.getLast? = some last → sr.cur ≠ [] → PrefRel k last (joinNL sr.cur))

/-- Simulation relation between the real splitter state and the raw splitter
state: same pending accumulator, and the emitted chunk texts are the
normalized, non-empty images of the flushed raw texts. -/
def SimSR (st : SplitState) (sr : RawState) : Prop :=
  st.chunks.map (fun c => c.text) = (sr.raws.map normalizeCE).filter (· ≠ "") ∧
  st.cur = sr.cur ∧ st.curLen = sr.curLen

/-! ## `extract_designing_ai2.split_chunks`: character-window hard splitting -/

/-- The `while start < len(text)` loop of `split_chunks` (fuelled: the Python
loop advances `start` by `max_chars - overlap` per step whenever
`overlap < max_chars`, so `len(text) + 1` fuel suffices; for
`overlap ≥ max_chars` the Python loop does not terminate). -/
def splitChunksGo (s : String) (maxChars ov : Nat) : Nat → Nat → List String
  | 0, _ => []
  | fuel + 1, start =>
    if start < s.length then
      let e := min (start + maxChars) s.length
      let chunk := pyStrip (strSlice s start e)
      let emitted := if chunk ≠ "" then [chunk] else []
      if e ≥ s.length then emitted
      else emitted ++ splitChunksGo s maxChars ov fuel (e - ov)
    else []

/-- `extract_designing_ai2.split_chunks(text, max_chars, overlap)`. -/
def splitChunks (s : String) (maxChars ov : Nat) : List String :=
  if s.length ≤ maxChars then [s]
  else splitChunksGo s maxChars ov (s.length + 1) 0


/-! ## `embed_chunks.py`: embedding attachment over batches -/

/-- A chunk record as consumed by `embed_chunks`: the `"text"` key plus the
embedding fields the function mutates in place. -/
structure EChunk where
  text : String
  embeddingModel : Option String := none
  embeddings : Option (List ℚ) := none
deriving DecidableEq

/-- One iteration of `for item, emb in zip(batch, resp... ["embeddings"])`:
attach a vector and the model name to a chunk. -/
def setEmb (model : String) (c : EChunk) (e : List ℚ) : EChunk :=
  { c with embeddingModel := some model, embeddings := some e }

/-- One batch of `embed_chunks`: the service (an external collaborator,
modelled as a function from the input texts to the returned vectors) is
called, and `zip` pairs chunks with vectors, silently truncating to the
shorter side; chunks beyond the returned count are left untouched. -/
def embedBatch (model : String) (svc : List String → List (List ℚ))
    (batch : List EChunk) : List EChunk :=
  let embs := svc (batch.map (·.text))
  List.zipWith (setEmb model) batch embs ++ batch.drop embs.length

/-- The `for b in range(0, len(chunks), batch_size)` loop of `embed_chunks`,
with `bs1 = batch_size - 1` so that each batch is `c :: rest.take bs1`
(fuelled; each step consumes at least one chunk, so `chunks.length` fuel
suffices). -/
def embedChunksAux (model : String) (svc : List String → List (List ℚ)) (bs1 : Nat) :
    Nat → List EChunk → List EChunk
  | 0, _ => []
  | _ + 1, [] => []
  | fuel + 1, c :: rest =>
    embedBatch model svc (c :: rest.take bs1)
      ++ embedChunksAux model svc bs1 fuel (rest.drop bs1)

/-- `embed_chunks(chunks, model, batch_size)` for `batch_size ≥ 1`
(source default 64). -/
def embedChunks (model : String) (svc : List String → List (List ℚ))
    (batchSize : Nat) (chunks : List EChunk) : List EChunk :=
  embedChunksAux model svc (batchSize - 1) chunks.length chunks


/-! ## `extract_chunks_from_pdf`: lines, header/footer filter, page pipeline -/

/-- A line as produced by `_iter_lines_with_style`: text, the `y`-extent of its
bounding box, and the length-weighted average font size (the `x` coordinates
are used only for the reading-order sort, which we take as given). -/
structure Line where
  text : String
  y0 : ℚ := 0
  y1 : ℚ := 0
  avgFontSize : ℚ := 0
deriving DecidableEq

/-- Fullmatch of `page\s*\d+(\s*/\s*\d+)?` (case-insensitive). -/
def matchPageNum (l : List Char) : Bool :=
  let lw := l.map Char.toLower
  if lw.take 4 = ['p', 'a', 'g', 'e'] then
    let r := (lw.drop 4).dropWhile isPyWs
    let d := r.takeWhile Char.isDigit
    let r2 := r.dropWhile Char.isDigit
    if d.isEmpty then false
    else if r2.isEmpty then true
    else
      match r2.dropWhile isPyWs with
      | '/' :: r3 =>
        let r4 := r3.dropWhile isPyWs
        !(r4.takeWhile Char.isDigit).isEmpty && (r4.dropWhile Char.isDigit).isEmpty
      | _ => false
  else false

/-- Fullmatch of `\d+\s*/\s*\d+`. -/
def matchNumSlashNum (l : List Char) : Bool :=
  let d := l.takeWhile Char.isDigit
  let r := l.dropWhile Char.isDigit
  if d.isEmpty then false
  else
    match r.dropWhile isPyWs with
    | '/' :: r3 =>
      let r4 := r3.dropWhile isPyWs
      !(r4.takeWhile Char.isDigit).isEmpty && (r4.dropWhile Char.isDigit).isEmpty
    | _ => false

/-- `chunks_extractor._looks_like_header_footer`. -/
def looksLikeHeaderFooter (s : String) : Bool :=
  let l := pyStripList s.data
  if l.isEmpty then true
  else if matchPageNum l then true
  else if matchNumSlashNum l then true
  else if l.all Char.isDigit then true
  else false

/-- Number of lines across all pages whose stripped text is `t` and whose top
`y` lies in the header band (`y0 <= top_y`), as tallied by
`_detect_header_footer_zones`. -/
def headerCount (lpp : List (List Line)) (topY : ℚ) (t : String) : Nat :=
  lpp.flatten.countP (fun ln => decide (pyStrip ln.text = t) && decide (ln.y0 ≤ topY))

/-- Number of lines across all pages whose stripped text is `t` and that fall
in the footer band (`elif`: not in the header band, and `y0 >= bottom_y`). -/
def footerCount (lpp : List (List Line)) (topY bottomY : ℚ) (t : String) : Nat :=
  lpp.flatten.countP
    (fun ln => decide (pyStrip ln.text = t) && !decide (ln.y0 ≤ topY) && decide (ln.y0 ≥ bottomY))

/-- Membership of `t` in the `header_texts` set built by
`_detect_header_footer_zones`: `t` occurs in the header band, and either it
repeats on at least `min_repeat_ratio` of the pages and is at most 120
characters, or it matches a page-number noise pattern. -/
def isHeaderText (lpp : List (List Line)) (pageHeight topPct bottomPct ratio : ℚ)
    (t : String) : Bool :=
  let n : Nat := max 1 lpp.length
  let c := headerCount lpp (pageHeight * topPct) t
  let _ := bottomPct
  decide (0 < c) &&
    ((decide ((c : ℚ) / (n : ℚ) ≥ ratio) && decide (t.length ≤ 120)) || looksLikeHeaderFooter t)

/-- Membership of `t` in the `footer_texts` set. -/
def isFooterText (lpp : List (List Line)) (pageHeight topPct bottomPct ratio : ℚ)
    (t : String) : Bool :=
  let n : Nat := max 1 lpp.length
  let c := footerCount lpp (pageHeight * topPct) (pageHeight * (1 - bottomPct)) t
  decide (0 < c) &&
    ((decide ((c : ℚ) / (n : ℚ) ≥ ratio) && decide (t.length ≤ 120)) || looksLikeHeaderFooter t)

/-- The line-skipping condition of the `for ln in lines` loop of
`extract_chunks_from_pdf` (lines 313-321): keep a line iff its stripped text is
non-empty, not a detected header/footer text, and not page-number noise. -/
def keepLine (hdr ftr : String → Bool) (ln : Line) : Bool :=
  let t := pyStrip ln.text
  decide (t ≠ "") && !hdr t && !ftr t && !looksLikeHeaderFooter t

/-- `keepLine` as a function of the stripped text only (the skip conditions of
the extraction loop depend only on the stripped line text). -/
def keepText (hdr ftr : String → Bool) (t : String) : Bool :=
  decide (t ≠ "") && !hdr t && !ftr t && !looksLikeHeaderFooter t

/-- Removing the detected header/footer lines from each page's line list. -/
def filterLines (hdr ftr : String → Bool) (lpp : List (List Line)) : List (List Line) :=
  lpp.map (fun lines => lines.filter (keepLine hdr ftr))

/-- Python `sorted(l)[len(l) // 2]` (insertion sort; ties are equal values). -/
def insertSorted (x : ℚ) : List ℚ → List ℚ
  | [] => [x]
  | y :: ys => if x ≤ y then x :: y :: ys else y :: insertSorted x ys

def pySort (l : List ℚ) : List ℚ :=
  l.foldl (fun acc x => insertSorted x acc) []

def midSorted (l : List ℚ) : ℚ :=
  (pySort l).getD (l.length / 2) 0

/-- `chunks_extractor._compute_body_font_size`: middle element of the sorted
positive average sizes, or 10.0 if none. -/
def computeBodyFontSize (allLines : List Line) : ℚ :=
  let sizes := (allLines.map (fun ln => ln.avgFontSize)).filter (fun x => decide (0 < x))
  if sizes.isEmpty then 10 else midSorted sizes

/-- `chunks_extractor._is_heading`: stripped text at most 140 characters and
average font size at least `body * heading_ratio`. -/
def isHeadingLine (ln : Line) (bodyFont ratio : ℚ) : Bool :=
  decide ((pyStrip ln.text).length ≤ 140) && decide (ln.avgFontSize ≥ bodyFont * ratio)

/-- The paragraph-accumulation state of the per-page block-building loop. -/
structure ParaState where
  blocks : List Block
  paraLines : List String
  prevY1 : Option ℚ
  curSection : Option String

/-- `flush_para()`: join, strip, normalize, and emit a body block when the
result is non-empty (tagged with the current section). -/
def flushPara (sourceFile : String) (pageNo : Nat) (ps : ParaState) : ParaState :=
  match ps.paraLines with
  | [] => ps
  | _ :: _ =>
    let text := normalizeCE (pyStrip (joinNL ps.paraLines))
    { ps with
      blocks :=
        if text ≠ "" then
          ps.blocks ++ [{ text := text, sourceFile := sourceFile, page := pageNo,
                          sectionTitle := ps.curSection }]
        else ps.blocks,
      paraLines := [] }

/-- The body of the `for ln in lines` loop of `extract_chunks_from_pdf`. -/
def lineStep (sourceFile : String) (pageNo : Nat) (hdr ftr : String → Bool)
    (bodyFont ratio : ℚ) (ps : ParaState) (ln : Line) : ParaState :=
  let t := pyStrip ln.text
  if t = "" then ps
  else if hdr t || ftr t then ps
  else if looksLikeHeaderFooter t then ps
  else if isHeadingLine ln bodyFont ratio then
    let ps1 := flushPara sourceFile pageNo ps
    { blocks := ps1.blocks ++ [{ text := t, sourceFile := sourceFile, page := pageNo,
                                 sectionTitle := some t, isHeading := true }],
      paraLines := [], prevY1 := some ln.y1, curSection := some t }
  else
    let ps1 :=
      match ps.prevY1 with
      | some p => if ln.y0 - p > bodyFont * (9 / 10) then flushPara sourceFile pageNo ps else ps
      | none => ps
    { ps1 with paraLines := ps1.paraLines ++ [t], prevY1 := some ln.y1 }

/-- Build the paragraph/heading blocks of one page, threading the document's
`current_section` in and out. -/
def buildBlocksPage (sourceFile : String) (pageNo : Nat) (hdr ftr : String → Bool)
    (bodyFont ratio : ℚ) (sec0 : Option String) (lines : List Line) :
    List Block × Option String :=
  let ps := lines.foldl (lineStep sourceFile pageNo hdr ftr bodyFont ratio)
    { blocks := [], paraLines := [], prevY1 := none, curSection := sec0 }
  let ps1 := flushPara sourceFile pageNo ps
  (ps1.blocks, ps1.curSection)

/-- `ch["chunk_index"] = running_chunk_index; running_chunk_index += 1`. -/
def assignIdx : Nat → List Chunk → List Chunk
  | _, [] => []
  | n, c :: cs => { c with chunkIndex := n } :: assignIdx (n + 1) cs

/-- The page loop of `extract_chunks_from_pdf`: per page, build blocks, split
into chunks, stamp running chunk indexes. -/
def pagesGo (sourceFile : String) (hdr ftr : String → Bool) (bodyFont ratio : ℚ)
    (maxChars overlapChars : Nat) :
    Nat → Nat → Option String → List (List Line) → List Chunk
  | _, _, _, [] => []
  | pageIdx, counter, sec, lines :: rest =>
    let res := buildBlocksPage sourceFile (pageIdx + 1) hdr ftr bodyFont ratio sec lines
    let pageChunks := splitIntoChunks res.1 maxChars overlapChars
    assignIdx counter pageChunks ++
      pagesGo sourceFile hdr ftr bodyFont ratio maxChars overlapChars
        (pageIdx + 1) (counter + pageChunks.length) res.2 rest

/-- `extract_chunks_from_pdf`, with the PDF reader's output (lines per page and
page heights) as input. -/
def extractChunksFromPages (sourceFile : String) (lpp : List (List Line))
    (pageHeights : List ℚ) (maxChars overlapChars : Nat) (headingRatio : ℚ)
    (removeHF : Bool) : List Chunk :=
  let bodyFont := computeBodyFontSize lpp.flatten
  let useHF := removeHF && !pageHeights.isEmpty
  let ph := midSorted pageHeights
  let hdr := fun t => useHF && isHeaderText lpp ph (8 / 100) (8 / 100) (6 / 10) t
  let ftr := fun t => useHF && isFooterText lpp ph (8 / 100) (8 / 100) (6 / 10) t
  pagesGo sourceFile hdr ftr bodyFont headingRatio maxChars overlapChars 0 0 none lpp


/-! ## `pdf_outlines.py`: spans, features, scoring, levels -/

/-- A text span from the PDF reader: text, font name, size. -/
structure Span where
  text : String
  font : String := ""
  size : ℚ := 0
deriving DecidableEq

/-- Naive substring search (`needle in haystack`). -/
def containsSub (needle : List Char) : List Char → Bool
  | [] => needle.isEmpty
  | c :: rest => needle.isPrefixOf (c :: rest) || containsSub needle rest

/-- `pdf_outlines.is_probably_bold`: `"bold"` or `"demi"` in the lowercased
font name. -/
def isProbablyBold (font : String) : Bool :=
  containsSub "bold".data (font.data.map Char.toLower) ||
    containsSub "demi".data (font.data.map Char.toLower)

/-- Collapse every whitespace run to a single space (`re.sub(r"\s+", " ", ·)`;
fuelled, each step consumes at least one character). -/
def collapseAllWsAux : Nat → List Char → List Char
  | 0, l => l
  | _ + 1, [] => []
  | fuel + 1, c :: rest =>
    if isPyWs c then ' ' :: collapseAllWsAux fuel (rest.dropWhile isPyWs)
    else c :: collapseAllWsAux fuel rest

/-- `pdf_outlines.normalize`: strip, then collapse whitespace runs. -/
def normalizeOL (s : String) : String :=
  let l := pyStripList s.data
  String.mk (collapseAllWsAux l.length l)

def pyLower (s : String) : String :=
  String.mk (s.data.map Char.toLower)

/-- Prefix match of `\d+\b`: at least one digit, and the character after the
maximal digit run (if any) is not a word character.  This is exactly when the
backtracking regex `\d+\b` accepts at the start of the string, and also
exactly when `^\d+(\.\d+){0,8}\b` (RE_NUMBERED) accepts: if a dot follows the
first digit run, the boundary already holds there. -/
def digitsThenBoundary (l : List Char) : Bool :=
  match l with
  | [] => false
  | d :: _ =>
    d.isDigit &&
      (match l.dropWhile Char.isDigit with
       | [] => true
       | c :: _ => !isWordChar c)

/-- Prefix match of `\s+\d+\b`. -/
def wsThenNum (l : List Char) : Bool :=
  match l with
  | [] => false
  | c :: t => isPyWs c && digitsThenBoundary (t.dropWhile isPyWs)

/-- Prefix match of `kw\s+\d+\b` on the lowercased text. -/
def matchKwNum (kw : String) (s : String) : Bool :=
  let lw := s.data.map Char.toLower
  kw.data.isPrefixOf lw && wsThenNum (lw.drop kw.length)

/-- `RE_MODULE`: `^(module|modul)\s+\d+\b`, case-insensitive. -/
def matchModule (s : String) : Bool :=
  matchKwNum "module" s || matchKwNum "modul" s

/-- `RE_CHAPTER`: `^(chapter|kapitel)\s+\d+\b`, case-insensitive. -/
def matchChapter (s : String) : Bool :=
  matchKwNum "chapter" s || matchKwNum "kapitel" s

/-- `RE_STEP`: `^step\s+\d+\b`, case-insensitive. -/
def matchStep (s : String) : Bool :=
  matchKwNum "step" s

/-- `RE_NUMBERED`: `^\d+(\.\d+){0,8}\b`. -/
def matchNumbered (s : String) : Bool :=
  digitsThenBoundary s.data

/-- Python `s.split()` (split on whitespace runs, dropping empties; fuelled). -/
def splitWsAux : Nat → List Char → List (List Char)
  | 0, _ => []
  | fuel + 1, l =>
    let l1 := l.dropWhile isPyWs
    match l1 with
    | [] => []
    | _ :: _ =>
      l1.takeWhile (fun c => !isPyWs c) ::
        splitWsAux fuel (l1.dropWhile (fun c => !isPyWs c))

def pySplitWs (s : String) : List String :=
  (splitWsAux s.data.length s.data).map String.mk

/-- `txt.split()[0].count(".")` (with `[0]` defaulting to the empty token;
`assign_level` only evaluates it after `RE_NUMBERED` matched, so the token
list is non-empty there). -/
def dotCountFirstToken (s : String) : Nat :=
  ((splitWsAux s.data.length s.data).headD []).countP (fun c => c = '.')

/-- The feature record computed by `line_features_from_spans`. -/
structure LineFeat where
  text : String
  avgSize : ℚ
  bold : Bool
  allCaps : Bool
  endsWithPeriod : Bool
  looksShort : Bool
  numbered : Bool
deriving DecidableEq

/-- `text.isupper() and any(c.isalpha() for c in text)` (ASCII scope). -/
def pyIsUpperAlpha (s : String) : Bool :=
  s.data.all (fun c => !c.isAlpha || c.isUpper) && s.data.any (fun c => c.isAlpha)

/-- `pdf_outlines.line_features_from_spans`. -/
def lineFeatures (spans : List Span) : Option LineFeat :=
  let text := normalizeOL (String.mk (spans.map (fun sp => sp.text.data)).flatten)
  if text = "" then none
  else
    let sizes := spans.filterMap (fun sp => if sp.size ≠ 0 then some sp.size else none)
    let avgSize := if sizes.isEmpty then 0 else sizes.sum / (sizes.length : ℚ)
    some
      { text := text
        avgSize := avgSize
        bold := spans.any (fun sp => isProbablyBold sp.font)
        allCaps := pyIsUpperAlpha text
        endsWithPeriod := decide (text.data.getLast? = some '.')
        looksShort := decide ((pySplitWs text).length ≤ 14)
        numbered := matchNumbered text || matchStep text || matchModule text ||
          matchChapter text }

/-- `pdf_outlines.heading_score`. -/
def headingScore (f : LineFeat) (body : ℚ) : ℚ :=
  max 0 (f.avgSize - body) * (135 / 100) +
    (if f.bold then 3 / 2 else 0) +
    (if f.numbered then 6 / 5 else 0) +
    (if f.looksShort then 3 / 5 else 0) +
    (if f.allCaps then 3 / 5 else 0) -
    (if f.endsWithPeriod then 1 else 0)

/-- `pdf_outlines.assign_level`: explicit patterns first, then size deltas. -/
def assignLevel (f : LineFeat) (body : ℚ) : Nat :=
  if matchModule f.text then 1
  else if matchChapter f.text then 1
  else if matchStep f.text then 2
  else if matchNumbered f.text then min 4 (2 + dotCountFirstToken f.text)
  else if 4 ≤ f.avgSize - body then 1
  else if 2 ≤ f.avgSize - body then 2
  else if 1 ≤ f.avgSize - body ∧ (f.bold || f.numbered) = true then 3
  else 0

/-- Modelled from the claim's wording (for the refinement check of C5):
pattern-first — "Module N"/"Chapter N" → 1, "Step N" → 2, a leading dotted
numeral → `min 4 (2 + dot_count)` — then size-second over the body size:
`≥ 4pt → 1`, `≥ 2pt → 2`, `≥ 1pt` with bold-or-numbered → 3, else 0 (body). -/
def assignLevelSpec (f : LineFeat) (body : ℚ) : Nat :=
  if matchModule f.text || matchChapter f.text then 1
  else if matchStep f.text then 2
  else if matchNumbered f.text then min 4 (2 + dotCountFirstToken f.text)
  else
    let delta := f.avgSize - body
    if 4 ≤ delta then 1
    else if 2 ≤ delta then 2
    else if 1 ≤ delta ∧ (f.bold || f.numbered) = true then 3
    else 0

/-- `round(x, 1)` on rationals (round-half-up; Python's float banker's
rounding differs only at exact representable halves, which we abstract). -/
def round1 (x : ℚ) : ℚ :=
  ((⌊x * 10 + 1 / 2⌋ : ℤ) : ℚ) / 10

/-- `round(x, 2)` on rationals. -/
def round2 (x : ℚ) : ℚ :=
  ((⌊x * 100 + 1 / 2⌋ : ℤ) : ℚ) / 100

/-- Sizes sampled by `estimate_body_font_size`: spans (across all pages and
text blocks) whose stripped text has at least 25 characters and whose size is
truthy, rounded to 0.1. -/
def collectBodySizes (doc : List (List (List (List Span)))) : List ℚ :=
  doc.flatten.flatten.flatten.filterMap
    (fun sp =>
      if (pyStrip sp.text).length < 25 then none
      else if sp.size = 0 then none
      else some (round1 sp.size))

/-- First occurrences of each value, in order (fuelled). -/
def firstOccsAux : Nat → List ℚ → List ℚ
  | 0, _ => []
  | _ + 1, [] => []
  | fuel + 1, x :: t => x :: firstOccsAux fuel (t.filter (fun y => y ≠ x))

def firstOccs (l : List ℚ) : List ℚ :=
  firstOccsAux l.length l

/-- `Counter(sizes).most_common(1)[0][0]`: the first-inserted value of maximal
multiplicity (`Counter.most_common` sorts by count only, stably). -/
def mostCommon (l : List ℚ) : ℚ :=
  match (firstOccs l).find?
      (fun x => l.count x = (((firstOccs l).map (fun y => l.count y)).foldl max 0)) with
  | some x => x
  | none => 0

/-- A one-span sample document whose only span has a 36-character text and
size 9 (used to instantiate the body-size theorem). -/
def sampleDoc935 : List (List (List (List Span))) :=
  [[[[{ text := "this line has at least 25 characters", size := 9 }]]]]

/-- `pdf_outlines.estimate_body_font_size`: document-global dominant size of
long-text spans, default 10.0. -/
def estimateBodyFontSize (doc : List (List (List (List Span)))) : ℚ :=
  let sizes := collectBodySizes doc
  if sizes.isEmpty then 10 else mostCommon sizes

/-- A heading as collected by `extract_headings`. -/
structure Heading where
  title : String
  level : Nat
  page : Nat
  score : ℚ
deriving DecidableEq

/-- The per-line step of `extract_headings`: features, score threshold, level
assignment, discard of level-0 lines. -/
def lineHeading (body minScore : ℚ) (pageNo : Nat) (line : List Span) : Option Heading :=
  match lineFeatures line with
  | none => none
  | some feat =>
    if headingScore feat body < minScore then none
    else
      let lvl := assignLevel feat body
      if lvl = 0 then none
      else some { title := feat.text, level := lvl, page := pageNo,
                  score := round2 (headingScore feat body) }

/-- Headings of one page (blocks flattened to their lines). -/
def pageHeadings (body minScore : ℚ) (pageNo : Nat) (page : List (List (List Span)))
    : List Heading :=
  page.flatten.filterMap (lineHeading body minScore pageNo)

/-- Deduplication of immediate repeats by `(title.lower(), level, page)`. -/
def dedupAux (prev : Option (String × Nat × Nat)) : List Heading → List Heading
  | [] => []
  | h :: t =>
    let key := (pyLower h.title, h.level, h.page)
    if some key = prev then dedupAux prev t
    else h :: dedupAux (some key) t

def dedupHeadings (hs : List Heading) : List Heading :=
  dedupAux none hs

/-- `pdf_outlines.extract_headings` over the PDF reader's span structure
(pages of text blocks of lines of spans), 1-based page numbers. -/
def extractHeadings (doc : List (List (List (List Span)))) (minScore : ℚ) : List Heading :=
  let body := estimateBodyFontSize doc
  dedupHeadings
    ((doc.enum.map (fun pi => pageHeadings body minScore (pi.1 + 1) pi.2)).flatten)

/-! ## `pdf_outlines.build_tree`: stack-based outline tree -/

inductive Tree (α : Type) where
  | node (val : α) (children : List (Tree α))
deriving Inhabited

def Tree.val {α : Type} : Tree α → α
  | node v _ => v

def Tree.children {α : Type} : Tree α → List (Tree α)
  | node _ cs => cs

/-- `stack[-1]["children"].append(node)` in the pure-fold reading: a popped
(finished) node is attached as the last child of the node below it. -/
def Tree.addChild {α : Type} (t c : Tree α) : Tree α :=
  match t with
  | node v cs => node v (cs ++ [c])

def Tree.map {α β : Type} (f : α → β) : Tree α → Tree β
  | node v cs => node (f v) (cs.attach.map (fun c => Tree.map f c.1))
termination_by t => sizeOf t
decreasing_by
  simp_wf
  have := List.sizeOf_lt_of_mem c.2
  omega

/-- `while stack and stack[-1]["level"] >= node["level"]: stack.pop()`,
attaching each popped node to the node below it; `none` models the
`stack[-1]` IndexError when the loop empties the stack. -/
def popAttach {α : Type} (lvlOf : α → Nat) (lvl : Nat) : List (Tree α) → Option (List (Tree α))
  | [] => none
  | [t] => if lvl ≤ lvlOf t.val then none else some [t]
  | t :: t2 :: rest =>
    if lvl ≤ lvlOf t.val then popAttach lvlOf lvl (t2.addChild t :: rest)
    else some (t :: t2 :: rest)
termination_by s => s.length

/-- One iteration of the `for h in headings` loop of `build_tree`. -/
def stepTree {α : Type} (lvlOf : α → Nat) (stack : List (Tree α)) (x : α) :
    Option (List (Tree α)) :=
  match popAttach lvlOf (lvlOf x) stack with
  | none => none
  | some s => some (Tree.node x [] :: s)

def foldStack {α : Type} (lvlOf : α → Nat) : List α → List (Tree α) → Option (List (Tree α))
  | [], s => some s
  | x :: xs, s =>
    match stepTree lvlOf s x with
    | none => none
    | some s' => foldStack lvlOf xs s'

/-- Attach all pending stack nodes into the bottom node (returning the root). -/
def collapseStack {α : Type} : List (Tree α) → Option (Tree α)
  | [] => none
  | [t] => some t
  | t :: t2 :: rest => collapseStack (t2.addChild t :: rest)
termination_by s => s.length

/-- `build_tree`, generic in the node payload. -/
def buildTreeG {α : Type} (lvlOf : α → Nat) (root : α) (xs : List α) : Option (Tree α) :=
  match foldStack lvlOf xs [Tree.node root []] with
  | none => none
  | some s => collapseStack s

/-- The payload of a `build_tree` node: title, level, page, score (the Python
dict; `page`/`score` are `None` on the synthetic ROOT). -/
structure HVal where
  title : String
  level : Nat
  page : Option Nat
  score : Option ℚ
deriving DecidableEq

def hvalOfHeading (h : Heading) : HVal :=
  { title := h.title, level := h.level, page := some h.page, score := some h.score }

def rootHVal : HVal :=
  { title := "ROOT", level := 0, page := none, score := none }

/-- `pdf_outlines.build_tree(headings)`; `none` models the IndexError raised
when a level-0 heading pops the ROOT off the stack. -/
def buildTree (hs : List Heading) : Option (Tree HVal) :=
  buildTreeG (fun v => v.level) rootHVal (hs.map hvalOfHeading)

/-- Index-instrumented payload: `none` for ROOT, `some (i, h)` for the `i`-th
input heading. -/
def idxLevel : Option (Nat × Heading) → Nat
  | none => 0
  | some (_, h) => h.level

/-- `build_tree` over index-instrumented headings (verification companion). -/
def buildTreeIdx (hs : List Heading) : Option (Tree (Option (Nat × Heading))) :=
  buildTreeG idxLevel none (hs.enum.map (fun p => some p))

def eraseIdx : Option (Nat × Heading) → HVal
  | none => rootHVal
  | some (_, h) => hvalOfHeading h

/-- The nearest preceding index with a strictly smaller level. -/
def NPS (levels : List Nat) (i : Nat) : Option Nat :=
  ((List.range i).filter (fun j => levels.getD j 0 < levels.getD i 0)).getLast?

/-- Parent/child relation claimed for the built tree: the child is a real
heading, the parent has a strictly smaller level, and the parent is exactly
the nearest preceding heading with a strictly smaller level (ROOT iff there
is none). -/
def C7Rel (hs : List Heading) : Option (Nat × Heading) → Option (Nat × Heading) → Prop :=
  fun p c =>
    match p, c with
    | _, none => False
    | none, some (i, h) =>
      hs.get? i = some h ∧ NPS (hs.map (fun x => x.level)) i = none ∧ 0 < h.level
    | some (j, g), some (i, h) =>
      hs.get? i = some h ∧ hs.get? j = some g ∧ g.level < h.level ∧
        NPS (hs.map (fun x => x.level)) i = some j

/-- Level of the `k`-th heading (0 out of range). -/
def levelAt (hs : List Heading) (k : Nat) : Nat :=
  (hs.map (fun x => x.level)).getD k 0

/-- Every parent/child pair of the tree satisfies `R`. -/
inductive PairsOK {α : Type} (R : α → α → Prop) : Tree α → Prop where
  | node (v : α) (cs : List (Tree α)) :
      (∀ c ∈ cs, R v (Tree.val c)) → (∀ c ∈ cs, PairsOK R c) →
      PairsOK R (Tree.node v cs)

/-- Invariant of the `build_tree` stack (head = top) while processing the
index-instrumented heading stream: the bottom is the ROOT, upper entries are
real headings with strictly increasing indices and levels towards the top,
adjacent entries are in the nearest-preceding-smaller-level relation, all
already-attached children satisfy that relation, every entry is "visible"
(no later processed heading has a smaller-or-equal level), and every processed
index is accounted for (dominated later, still on the stack, or — during a pop
phase with current level `lopt = some l` — popped because its level is at
least `l`). -/
structure StackInvP (hs : List Heading) (i : Nat) (lopt : Option Nat)
    (S : List (Tree (Option (Nat × Heading)))) : Prop where
  nonempty : S ≠ []
  bottomRoot : S.getLast?.map Tree.val = some none
  uppersSome : ∀ u ∈ S.dropLast, ∃ j h, u.val = some (j, h)
  chain : List.Chain' (fun a b => C7Rel hs b.val a.val) S
  uppers : List.Pairwise
    (fun a b => idxLevel b.val < idxLevel a.val ∧
      ∀ j h, b.val = some (j, h) → ∃ j2 h2, a.val = some (j2, h2) ∧ j < j2) S
  pairs : ∀ u ∈ S, PairsOK (C7Rel hs) u
  wf : ∀ u ∈ S, ∀ j h, u.val = some (j, h) →
    hs.get? j = some h ∧ j < i ∧ ∀ k, j < k → k < i → h.level < levelAt hs k
  comp : ∀ j, j < i →
    (∃ k, j < k ∧ k < i ∧ levelAt hs k ≤ levelAt hs j) ∨
    (∃ u ∈ S, ∃ h, u.val = some (j, h)) ∨
    (∃ l, lopt = some l ∧ l ≤ levelAt hs j)

/-! ## `extract_designing_ai.py`: per-page body size, level classification,
section context -/

/-- `statistics.median` (sorted; odd → middle, even → mean of middles). -/
def pyMedian (l : List ℚ) : ℚ :=
  let s := pySort l
  if l.length % 2 = 1 then s.getD (l.length / 2) 0
  else (s.getD (l.length / 2 - 1) 0 + s.getD (l.length / 2) 0) / 2

/-- `extract_designing_ai.page_body_font_size`: median size over a single
page's spans with non-empty text and size at least 6, else 0.0. -/
def pageBodyFontSize (page : List (List (List Span))) : ℚ :=
  let sizes := page.flatten.flatten.filterMap
    (fun sp => if pyStrip sp.text ≠ "" ∧ 6 ≤ sp.size then some sp.size else none)
  if sizes.isEmpty then 0 else pyMedian sizes

/-- `extract_designing_ai.classify_level` (scales 1.75 / 1.35 / 1.20). -/
inductive CtxLevel where
  | title
  | h1
  | h2
deriving DecidableEq

def classifyLevel (avgSize bodySize : ℚ) : Option CtxLevel :=
  if bodySize ≤ 0 then none
  else if bodySize * (175 / 100) ≤ avgSize then some CtxLevel.title
  else if bodySize * (135 / 100) ≤ avgSize then some CtxLevel.h1
  else if bodySize * (120 / 100) ≤ avgSize then some CtxLevel.h2
  else none

/-- The section-context state `{"title": ..., "h1": ..., "h2": ...}`. -/
structure Ctx where
  title : Option String
  h1 : Option String
  h2 : Option String
deriving DecidableEq

/-- A classified block event: a heading at one of the three levels, or body. -/
inductive CtxEvent where
  | heading (lvl : CtxLevel) (text : String)
  | body
deriving DecidableEq

/-- The context transition of `pdf_to_qdrant_jsonl` (lines 200-212) and
`extract_all_text` (lines 119-130): a title sets `title` and clears `h1`,`h2`;
an h1 sets `h1` and clears `h2`; an h2 sets `h2`; body changes nothing. -/
def ctxApply (c : Ctx) : CtxEvent → Ctx
  | CtxEvent.heading CtxLevel.title t => { title := some t, h1 := none, h2 := none }
  | CtxEvent.heading CtxLevel.h1 t => { title := c.title, h1 := some t, h2 := none }
  | CtxEvent.heading CtxLevel.h2 t => { title := c.title, h1 := c.h1, h2 := some t }
  | CtxEvent.body => c

def ctx0 : Ctx := { title := none, h1 := none, h2 := none }

/-- Time-instrumented context: each slot remembers the event index that set
it (verification companion of `Ctx`). -/
structure CtxT where
  title : Option (String × Nat)
  h1 : Option (String × Nat)
  h2 : Option (String × Nat)
deriving DecidableEq

def ctxApplyT (c : CtxT) (e : CtxEvent) (n : Nat) : CtxT :=
  match e with
  | CtxEvent.heading CtxLevel.title t => { title := some (t, n), h1 := none, h2 := none }
  | CtxEvent.heading CtxLevel.h1 t => { title := c.title, h1 := some (t, n), h2 := none }
  | CtxEvent.heading CtxLevel.h2 t => { title := c.title, h1 := c.h1, h2 := some (t, n) }
  | CtxEvent.body => c

def ctx0T : CtxT := { title := none, h1 := none, h2 := none }

def runCtxTAux : Nat → CtxT → List CtxEvent → CtxT
  | _, c, [] => c
  | n, c, e :: es => runCtxTAux (n + 1) (ctxApplyT c e n) es

/-- Run the instrumented context machine over a document's event stream. -/
def runCtxT (evs : List CtxEvent) : CtxT :=
  runCtxTAux 0 ctx0T evs

def stripTime : Option (String × Nat) → Option String
  | none => none
  | some (t, _) => some t

def stripCtxT (c : CtxT) : Ctx :=
  { title := stripTime c.title, h1 := stripTime c.h1, h2 := stripTime c.h2 }

/-- "Set earlier than": if both slots are filled, the first was stamped at a
strictly smaller event index. -/
def TimeLt : Option (String × Nat) → Option (String × Nat) → Prop
  | some a, some b => a.2 < b.2
  | _, _ => True

end SpringChat

/-! # Theorems -/

namespace SpringChat

theorem length_dropWhile_le' (p : Char → Bool) (l : List Char) :
    (l.dropWhile p).length ≤ l.length := by
  induction l with
  | nil => simp [List.dropWhile]
  | cons c t ih =>
    by_cases h : p c
    · simp only [List.dropWhile, h, List.length_cons]
      omega
    · simp [List.dropWhile, h]

theorem length_pyStrip_le (s : String) : (pyStrip s).length ≤ s.length := by
  show (pyStripList s.data).length ≤ s.data.length
  unfold pyStripList
  calc ((s.data.dropWhile isPyWs).reverse.dropWhile isPyWs).reverse.length
      = ((s.data.dropWhile isPyWs).reverse.dropWhile isPyWs).length := by
        rw [List.length_reverse]
    _ ≤ (s.data.dropWhile isPyWs).reverse.length := length_dropWhile_le' _ _
    _ = (s.data.dropWhile isPyWs).length := by rw [List.length_reverse]
    _ ≤ s.data.length := length_dropWhile_le' _ _

theorem length_strSlice_le (s : String) (a b : Nat) :
    (strSlice s a b).length ≤ b - a := by
  show ((s.data.drop a).take (b - a)).length ≤ b - a
  simp [List.length_take]

theorem splitChunksGo_length_le (s : String) (maxChars ov : Nat) :
    ∀ (fuel start : Nat) (c : String),
      c ∈ splitChunksGo s maxChars ov fuel start → c.length ≤ maxChars := by
  intro fuel
  induction fuel with
  | zero => intro start c hc; simp [splitChunksGo] at hc
  | succ fuel ih =>
    intro start c hc
    unfold splitChunksGo at hc
    by_cases hs : start < s.length
    · simp only [hs, if_true] at hc
      have hchunk : c = pyStrip (strSlice s start (min (start + maxChars) s.length)) →
          c.length ≤ maxChars := by
        intro hceq
        calc c.length ≤ (strSlice s start (min (start + maxChars) s.length)).length := by
              rw [hceq]; exact length_pyStrip_le _
          _ ≤ min (start + maxChars) s.length - start := length_strSlice_le _ _ _
          _ ≤ maxChars := by omega
      have hemit : c ∈ (if pyStrip (strSlice s start (min (start + maxChars) s.length)) ≠ ""
          then [pyStrip (strSlice s start (min (start + maxChars) s.length))] else []) →
          c.length ≤ maxChars := by
        intro hmem
        by_cases hne : pyStrip (strSlice s start (min (start + maxChars) s.length)) ≠ ""
        · rw [if_pos hne, List.mem_singleton] at hmem
          exact hchunk hmem
        · rw [if_neg hne] at hmem
          exact absurd hmem (List.not_mem_nil c)
      by_cases he : min (start + maxChars) s.length ≥ s.length
      · rw [if_pos he] at hc
        exact hemit hc
      · rw [if_neg he, List.mem_append] at hc
        rcases hc with hc | hc
        · exact hemit hc
        · exact ih _ c hc
    · simp only [hs, if_false, List.not_mem_nil] at hc


/-! ## C1: chunk size bound and hard splitting -/

/-- C1, counterexample: with `max_chars = 5` and `overlap_chars = 2 < 5`, a
single body block of 8 characters is emitted by
`chunks_extractor._split_into_chunks` as one chunk of length 8 > 5.  The
function has no hard-split branch, so the claimed bound fails. -/
theorem c1_counterexample :
    (splitIntoChunks [{ text := "aaaaaaaa" }] 5 2).map (fun c => c.text) = ["aaaaaaaa"] ∧
    ∃ c ∈ splitIntoChunks [{ text := "aaaaaaaa" }] 5 2, 5 < c.text.length := by
  exact ⟨by decide, by decide⟩

/-- C1, amended: the character-window splitter
`extract_designing_ai2.split_chunks` does hard-split at character boundaries,
and every chunk it emits has length at most `max_chars`;
`chunks_extractor._split_into_chunks` has no hard split and can emit a chunk
longer than `max_chars` when a single block's text exceeds the budget. -/
theorem c1_split_chunks_bounded (s : String) (maxChars ov : Nat) :
    ∀ c ∈ splitChunks s maxChars ov, c.length ≤ maxChars := by
  intro c hc
  unfold splitChunks at hc
  by_cases hs : s.length ≤ maxChars
  · rw [if_pos hs, List.mem_singleton] at hc
    exact hc ▸ hs
  · rw [if_neg hs] at hc
    exact splitChunksGo_length_le s maxChars ov _ 0 c hc

/-- C1, witness: `split_chunks "abcde" 2 1` emits `"ab"`, and the bound
theorem applies to it. -/
theorem c1_split_chunks_bounded_witness : ("ab" : String).length ≤ 2 :=
  c1_split_chunks_bounded "abcde" 2 1 "ab" (by decide)

/-! ## C2: embedding count mismatch is silently truncated -/

/-- C2: a batch of five chunks answered by the embedding service with only
four vectors does not fail: `embed_chunks` zips the batch with the vectors,
attaching embeddings to the first four chunks and leaving the fifth chunk
without an embedding, raising no error — contradicting the claim that a count
mismatch is a hard failure for the batch. -/
theorem c2_mismatch_silently_truncates :
    (embedChunks "bge-m3" (fun _ => [[1], [2], [3], [4]]) 64
        [{ text := "t1" }, { text := "t2" }, { text := "t3" },
         { text := "t4" }, { text := "t5" }]).length = 5 ∧
    ((embedChunks "bge-m3" (fun _ => [[1], [2], [3], [4]]) 64
        [{ text := "t1" }, { text := "t2" }, { text := "t3" },
         { text := "t4" }, { text := "t5" }]).take 4).all
      (fun c => c.embeddings.isSome) = true ∧
    ((embedChunks "bge-m3" (fun _ => [[1], [2], [3], [4]]) 64
        [{ text := "t1" }, { text := "t2" }, { text := "t3" },
         { text := "t4" }, { text := "t5" }]).drop 4) =
      [{ text := "t5" }] := by
  exact ⟨by decide, by decide, by decide⟩


/-! ## C3: overlap law -/

/-- C3, counterexample: with `max_chars = 10`, `overlap_chars = 3`, body blocks
`"abcdef gh"` and `"xy"` produce chunks `["abcdef gh", "gh\nxy"]`; the last 3
characters of the first chunk's (pre-overlap) text are `" gh"`, which is not a
prefix of the second chunk's text because `flush` normalizes and strips the
seeded accumulator, dropping the leading space. -/
theorem c3_counterexample :
    (splitIntoChunks [{ text := "abcdef gh" }, { text := "xy" }] 10 3).map
        (fun c => c.text) = ["abcdef gh", "gh\nxy"] ∧
    List.isPrefixOf (takeRightStr 3 "abcdef gh").data ("gh\nxy" : String).data = false := by
  exact ⟨by decide, by decide⟩

theorem isPrefixOf_append_self (l m : List Char) : l.isPrefixOf (l ++ m) = true := by
  induction l with
  | nil => simp [List.isPrefixOf]
  | cons a as ih => simp [List.isPrefixOf, ih]

theorem isPrefixOf_append_right (p l m : List Char) (h : p.isPrefixOf l = true) :
    p.isPrefixOf (l ++ m) = true := by
  induction p generalizing l with
  | nil => simp [List.isPrefixOf]
  | cons a as ih =>
    cases l with
    | nil => simp [List.isPrefixOf] at h
    | cons b bs =>
      simp only [List.isPrefixOf, List.cons_append, Bool.and_eq_true] at h ⊢
      exact ⟨h.1, ih bs h.2⟩

theorem string_data_append (s t : String) : (s ++ t).data = s.data ++ t.data := by
  cases s; cases t; rfl

theorem joinNL_concat (l : List String) (t : String) (h : l ≠ []) :
    joinNL (l ++ [t]) = joinNL l ++ "\n" ++ t := by
  induction l with
  | nil => exact absurd rfl h
  | cons x xs ih =>
    cases xs with
    | nil => simp [joinNL]
    | cons y ys =>
      have hne : y :: ys ≠ [] := by simp
      calc joinNL ((x :: y :: ys) ++ [t])
          = x ++ "\n" ++ joinNL ((y :: ys) ++ [t]) := by simp [joinNL]
        _ = x ++ "\n" ++ (joinNL (y :: ys) ++ "\n" ++ t) := by rw [ih hne]
        _ = joinNL (x :: y :: ys) ++ "\n" ++ t := by
            simp [joinNL, String.ext_iff, string_data_append, List.append_assoc]

theorem joinNL_pair (a b : String) : joinNL [a, b] = a ++ "\n" ++ b := rfl

theorem prefRel_extend (k : Nat) (a b m : String) (h : PrefRel k a b) :
    PrefRel k a (b ++ m) := by
  unfold PrefRel at h ⊢
  rw [string_data_append]
  exact isPrefixOf_append_right _ _ _ h

theorem prefRel_tail_append (k : Nat) (a m : String) :
    PrefRel k a (takeRightStr k a ++ m) := by
  unfold PrefRel
  rw [string_data_append]
  exact isPrefixOf_append_self _ _

/-- Step preservation of the raw-splitter invariant on body blocks. -/
theorem rawInv_step (m k : Nat) (hk : 0 < k) (b : Block) (hb : b.isHeading = false)
    (sr : RawState) (h : RawInv k sr) : RawInv k (rawStep m k sr b) := by
  obtain ⟨hchain, hemp, hlast⟩ := h
  by_cases ht : pyStrip b.text = ""
  · simpa [rawStep, ht] using ⟨hchain, hemp, hlast⟩
  · by_cases hov : sr.curLen + (pyStrip b.text).length + 2 > m
    · by_cases hcur : sr.cur = []
      · have hraws : sr.raws = [] := hemp hcur
        refine ⟨?_, ?_, ?_⟩ <;>
          simp [rawStep, ht, hb, hov, hcur, rawFlush, hraws, RawInv]
      · have hguard : (k > 0 && !sr.cur.isEmpty) = true := by
          simp [hk, List.isEmpty_iff, hcur]
        have hres : rawStep m k sr b =
            { raws := sr.raws ++ [joinNL sr.cur],
              cur := [takeRightStr k (joinNL sr.cur), pyStrip b.text],
              curLen := (takeRightStr k (joinNL sr.cur)).length + (pyStrip b.text).length } := by
          rw [rawStep]
          simp only [ht, hb, Bool.false_eq_true, if_false, hov, if_true, hguard]
          rw [rawFlush]
          cases hc : sr.cur with
          | nil => exact absurd hc hcur
          | cons x xs => simp [← hc]
        rw [hres]
        refine ⟨?_, ?_, ?_⟩
        · exact List.Chain'.append hchain (List.chain'_singleton _)
            (by
              intro x hx y hy
              simp only [List.head?_cons, Option.mem_def, Option.some_inj] at hy
              subst hy
              exact hlast x hx hcur)
        · intro hcontra; simp at hcontra
        · intro last hl _
          rw [List.getLast?_concat] at hl
          cases hl
          rw [joinNL_pair]
          exact prefRel_extend _ _ _ _ (prefRel_tail_append _ _ "\n")
    · have hres : rawStep m k sr b =
          { raws := sr.raws, cur := sr.cur ++ [pyStrip b.text],
            curLen := sr.curLen + (pyStrip b.text).length + 2 } := by
        rw [rawStep]
        simp [ht, hb, hov]
      rw [hres]
      refine ⟨hchain, ?_, ?_⟩
      · intro hcontra; simp at hcontra
      · intro last hl _
        by_cases hcur : sr.cur = []
        · have hraws : sr.raws = [] := hemp hcur
          rw [hraws] at hl
          simp at hl
        · have := hlast last hl hcur
          rw [joinNL_concat sr.cur _ hcur]
          exact prefRel_extend _ _ _ _ (prefRel_extend _ _ _ _ this)

/-- The invariant holds after folding any stream of body blocks. -/
theorem rawInv_fold (m k : Nat) (hk : 0 < k) :
    ∀ (blocks : List Block), (∀ b ∈ blocks, b.isHeading = false) →
      ∀ sr, RawInv k sr → RawInv k (blocks.foldl (rawStep m k) sr) := by
  intro blocks
  induction blocks with
  | nil => intro _ sr h; exact h
  | cons b bs ih =>
    intro hb sr h
    rw [List.foldl_cons]
    exact ih (fun x hx => hb x (List.mem_cons_of_mem b hx))
      _ (rawInv_step m k hk b (hb b (List.mem_cons_self b bs)) sr h)

theorem chain_rawFlush (k : Nat) (sr : RawState) (h : RawInv k sr) :
    List.Chain' (PrefRel k) (rawFlush sr).raws := by
  obtain ⟨hchain, hemp, hlast⟩ := h
  rw [rawFlush]
  cases hc : sr.cur with
  | nil => exact hchain
  | cons x xs =>
    simp only [← hc]
    exact List.Chain'.append hchain (List.chain'_singleton _)
      (by
        intro a ha y hy
        simp only [List.head?_cons, Option.mem_def, Option.some_inj] at hy
        subst hy
        exact hlast a ha (by rw [hc]; simp))

theorem simSR_flush (st : SplitState) (sr : RawState) (h : SimSR st sr) :
    SimSR (flushState st) (rawFlush sr) := by
  obtain ⟨hch, hcur, hlen⟩ := h
  cases hc : sr.cur with
  | nil =>
    have hc' : st.cur = [] := by rw [hcur, hc]
    simp only [flushState, rawFlush, hc, hc']
    exact ⟨hch, hcur, hlen⟩
  | cons x xs =>
    have hc' : st.cur = x :: xs := by rw [hcur, hc]
    simp only [flushState, rawFlush, hc, hc']
    refine ⟨?_, rfl, rfl⟩
    dsimp only
    rw [List.map_append, List.filter_append]
    by_cases hne : normalizeCE (joinNL (x :: xs)) ≠ ""
    · rw [if_pos hne, List.map_append, hch]
      simp [hne]
    · rw [if_neg hne, hch]
      simp only [ne_eq, Decidable.not_not] at hne
      simp [hne]

theorem simSR_step (m k : Nat) (b : Block) (st : SplitState) (sr : RawState)
    (h : SimSR st sr) : SimSR (splitStep m k st b) (rawStep m k sr b) := by
  obtain ⟨ch, cur, meta, len⟩ := st
  obtain ⟨raws, rcur0, rlen0⟩ := sr
  obtain ⟨hch, hcur, hlen⟩ := h
  dsimp only at hch hcur hlen
  subst hcur
  subst hlen
  by_cases ht : pyStrip b.text = ""
  · simpa [splitStep, rawStep, ht] using ⟨hch, rfl, rfl⟩
  · by_cases hh : b.isHeading
    · obtain ⟨f1, f2, f3⟩ :=
        simSR_flush ⟨ch, cur, meta, len⟩ ⟨raws, cur, len⟩ ⟨hch, rfl, rfl⟩
      simp only [splitStep, rawStep, ht, hh, if_false, if_true, ite_false, ite_true]
      exact ⟨f1, rfl, rfl⟩
    · by_cases hn : meta.isNone
      · obtain ⟨f1, f2, f3⟩ :=
          simSR_flush ⟨ch, cur, some (blockMeta b), len⟩ ⟨raws, cur, len⟩ ⟨hch, rfl, rfl⟩
        simp only [splitStep, rawStep, ht, hh, hn, if_false, if_true, ite_false, ite_true]
        by_cases hov : len + (pyStrip b.text).length + 2 > m
        · simp only [hov, if_true, ite_true]
          by_cases hg : (k > 0 && !cur.isEmpty) = true
          · simp only [hg, if_true, ite_true]
            exact ⟨f1, rfl, rfl⟩
          · simp only [hg, if_false, ite_false, Bool.false_eq_true]
            exact ⟨f1, rfl, rfl⟩
        · simp only [hov, if_false, ite_false]
          exact ⟨hch, rfl, rfl⟩
      · obtain ⟨f1, f2, f3⟩ :=
          simSR_flush ⟨ch, cur, meta, len⟩ ⟨raws, cur, len⟩ ⟨hch, rfl, rfl⟩
        simp only [splitStep, rawStep, ht, hh, hn, if_false, if_true, ite_false, ite_true,
          Bool.false_eq_true]
        by_cases hov : len + (pyStrip b.text).length + 2 > m
        · simp only [hov, if_true, ite_true]
          by_cases hg : (k > 0 && !cur.isEmpty) = true
          · simp only [hg, if_true, ite_true]
            exact ⟨f1, rfl, rfl⟩
          · simp only [hg, if_false, ite_false, Bool.false_eq_true]
            exact ⟨f1, rfl, rfl⟩
        · simp only [hov, if_false, ite_false]
          exact ⟨hch, rfl, rfl⟩

/-! C3, amended: the overlap law holds at the raw accumulator level.  For a
stream of body blocks and `overlap_chars = k > 0`, consecutive flushed raw
accumulator texts satisfy the law "the last `k` characters of the earlier text
are a prefix of the later text", and the chunk texts actually emitted by
`_split_into_chunks` are the whitespace-normalized non-empty images of those
raw texts (the normalization/strip in `flush` is what can break the law on the
emitted texts, as the counterexample shows). -/

/-- C3, amended theorem. -/
theorem c3_raw_overlap_law (blocks : List Block) (maxChars k : Nat)
    (hk : 0 < k) (hb : ∀ b ∈ blocks, b.isHeading = false) :
    List.Chain' (PrefRel k) (rawChunks blocks maxChars k) ∧
    (splitIntoChunks blocks maxChars k).map (fun c => c.text) =
      ((rawChunks blocks maxChars k).map normalizeCE).filter (· ≠ "") := by
  constructor
  · refine chain_rawFlush k _ (rawInv_fold maxChars k hk blocks hb ⟨[], [], 0⟩ ?_)
    refine ⟨List.chain'_nil, fun _ => rfl, ?_⟩
    intro last hl
    simp at hl
  · have hsim : ∀ (bs : List Block) (st : SplitState) (sr : RawState), SimSR st sr →
        SimSR (bs.foldl (splitStep maxChars k) st) (bs.foldl (rawStep maxChars k) sr) := by
      intro bs
      induction bs with
      | nil => intro st sr h; exact h
      | cons b bs ih =>
        intro st sr h
        exact ih _ _ (simSR_step maxChars k b st sr h)
    exact (simSR_flush _ _ (hsim blocks ⟨[], [], none, 0⟩ ⟨[], [], 0⟩ ⟨by simp, rfl, rfl⟩)).1

/-- C3, witness: the amended law applied at the counterexample input. -/
theorem c3_raw_overlap_law_witness :
    List.Chain' (PrefRel 3) (rawChunks [{ text := "abcdef gh" }, { text := "xy" }] 10 3) ∧
    (splitIntoChunks [{ text := "abcdef gh" }, { text := "xy" }] 10 3).map
        (fun c => c.text) =
      ((rawChunks [{ text := "abcdef gh" }, { text := "xy" }] 10 3).map
        normalizeCE).filter (· ≠ "") :=
  c3_raw_overlap_law [{ text := "abcdef gh" }, { text := "xy" }] 10 3 (by decide)
    (by decide)


/-! ## C4: chunk indexes are 0,1,2,... in emission order -/

theorem map_chunkIndex_assignIdx (l : List Chunk) :
    ∀ n : Nat, (assignIdx n l).map (fun c => c.chunkIndex) = List.range' n l.length := by
  induction l with
  | nil => intro n; simp [assignIdx]
  | cons c cs ih =>
    intro n
    simp only [assignIdx, List.map_cons, List.length_cons, List.range'_succ, ih]

theorem length_assignIdx (l : List Chunk) : ∀ n : Nat, (assignIdx n l).length = l.length := by
  induction l with
  | nil => intro n; rfl
  | cons c cs ih => intro n; simp [assignIdx, ih]

theorem pagesGo_indexes (sourceFile : String) (hdr ftr : String → Bool)
    (bodyFont ratio : ℚ) (maxChars overlapChars : Nat) :
    ∀ (lpp : List (List Line)) (pageIdx counter : Nat) (sec : Option String),
      (pagesGo sourceFile hdr ftr bodyFont ratio maxChars overlapChars
          pageIdx counter sec lpp).map (fun c => c.chunkIndex) =
        List.range' counter
          (pagesGo sourceFile hdr ftr bodyFont ratio maxChars overlapChars
            pageIdx counter sec lpp).length := by
  intro lpp
  induction lpp with
  | nil => intro pageIdx counter sec; simp [pagesGo]
  | cons lines rest ih =>
    intro pageIdx counter sec
    simp only [pagesGo]
    rw [List.map_append, map_chunkIndex_assignIdx, ih, List.length_append, length_assignIdx]
    have := List.range'_append counter
      (splitIntoChunks (buildBlocksPage sourceFile (pageIdx + 1) hdr ftr bodyFont ratio
          sec lines).1 maxChars overlapChars).length
      (pagesGo sourceFile hdr ftr bodyFont ratio maxChars overlapChars (pageIdx + 1)
        (counter + (splitIntoChunks (buildBlocksPage sourceFile (pageIdx + 1) hdr ftr
            bodyFont ratio sec lines).1 maxChars overlapChars).length)
        (buildBlocksPage sourceFile (pageIdx + 1) hdr ftr bodyFont ratio sec lines).2
        rest).length 1
    simp only [one_mul] at this
    rw [this, Nat.add_comm]

/-- C4: for every document input (lines per page, page heights, parameters),
the `chunk_index` values of the chunks emitted by `extract_chunks_from_pdf`,
in emission order (page-major, then block order), are exactly
`0, 1, 2, ...` — strictly increasing from 0 with no gaps. -/
theorem c4_chunk_indexes_are_range (sourceFile : String) (lpp : List (List Line))
    (pageHeights : List ℚ) (maxChars overlapChars : Nat) (headingRatio : ℚ)
    (removeHF : Bool) :
    (extractChunksFromPages sourceFile lpp pageHeights maxChars overlapChars
        headingRatio removeHF).map (fun c => c.chunkIndex) =
      List.range
        (extractChunksFromPages sourceFile lpp pageHeights maxChars overlapChars
          headingRatio removeHF).length := by
  unfold extractChunksFromPages
  rw [pagesGo_indexes, List.range_eq_range']


/-! ## C9: idempotence of the header/footer filter -/

theorem keepLine_eq_keepText (hdr ftr : String → Bool) (ln : Line) :
    keepLine hdr ftr ln = keepText hdr ftr (pyStrip ln.text) := rfl

theorem flatten_filterLines (hdr ftr : String → Bool) (lpp : List (List Line)) :
    (filterLines hdr ftr lpp).flatten = lpp.flatten.filter (keepLine hdr ftr) := by
  unfold filterLines
  exact (List.filter_flatten (keepLine hdr ftr) lpp).symm

theorem headerCount_filterLines (hdr ftr : String → Bool) (lpp : List (List Line))
    (topY : ℚ) (t : String) (hkeep : keepText hdr ftr t = true) :
    headerCount (filterLines hdr ftr lpp) topY t = headerCount lpp topY t := by
  unfold headerCount
  rw [flatten_filterLines, List.countP_filter]
  apply List.countP_congr
  intro ln _
  by_cases hst : pyStrip ln.text = t
  · simp [hst, keepLine_eq_keepText, hkeep]
  · simp [hst]

theorem footerCount_filterLines (hdr ftr : String → Bool) (lpp : List (List Line))
    (topY bottomY : ℚ) (t : String) (hkeep : keepText hdr ftr t = true) :
    footerCount (filterLines hdr ftr lpp) topY bottomY t = footerCount lpp topY bottomY t := by
  unfold footerCount
  rw [flatten_filterLines, List.countP_filter]
  apply List.countP_congr
  intro ln _
  by_cases hst : pyStrip ln.text = t
  · simp [hst, keepLine_eq_keepText, hkeep]
  · simp [hst]

theorem length_filterLines (hdr ftr : String → Bool) (lpp : List (List Line)) :
    (filterLines hdr ftr lpp).length = lpp.length := by
  unfold filterLines
  exact List.length_map lpp _

theorem isHeaderText_filterLines (hdr ftr : String → Bool) (lpp : List (List Line))
    (ph tp bp ratio : ℚ) (t : String) (hkeep : keepText hdr ftr t = true) :
    isHeaderText (filterLines hdr ftr lpp) ph tp bp ratio t =
      isHeaderText lpp ph tp bp ratio t := by
  unfold isHeaderText
  rw [headerCount_filterLines hdr ftr lpp _ t hkeep, length_filterLines]

theorem isFooterText_filterLines (hdr ftr : String → Bool) (lpp : List (List Line))
    (ph tp bp ratio : ℚ) (t : String) (hkeep : keepText hdr ftr t = true) :
    isFooterText (filterLines hdr ftr lpp) ph tp bp ratio t =
      isFooterText lpp ph tp bp ratio t := by
  unfold isFooterText
  rw [footerCount_filterLines hdr ftr lpp _ _ t hkeep, length_filterLines]

theorem filterLines_twice (hdr1 ftr1 hdr2 ftr2 : String → Bool) (lpp : List (List Line))
    (h : ∀ t, keepText hdr1 ftr1 t = true → keepText hdr2 ftr2 t = true) :
    filterLines hdr2 ftr2 (filterLines hdr1 ftr1 lpp) = filterLines hdr1 ftr1 lpp := by
  unfold filterLines
  rw [List.map_map]
  apply List.map_congr_left
  intro lines _
  show (lines.filter (keepLine hdr1 ftr1)).filter (keepLine hdr2 ftr2) =
    lines.filter (keepLine hdr1 ftr1)
  rw [List.filter_eq_self]
  intro ln hln
  rw [List.mem_filter] at hln
  rw [keepLine_eq_keepText]
  rw [keepLine_eq_keepText] at hln
  exact h _ hln.2

/-- C9: the header/footer filter is idempotent.  Detecting header/footer texts
on an already-filtered per-page line set and removing them again removes
nothing further: removal depends only on a line's stripped text, so all
occurrences of a surviving text survive together, the page count is unchanged,
and a surviving text's band counts — hence its blacklist status — are the same
on the second run. -/
theorem c9_filter_idempotent (lpp : List (List Line)) (ph tp bp ratio : ℚ) :
    filterLines
        (isHeaderText (filterLines (isHeaderText lpp ph tp bp ratio)
          (isFooterText lpp ph tp bp ratio) lpp) ph tp bp ratio)
        (isFooterText (filterLines (isHeaderText lpp ph tp bp ratio)
          (isFooterText lpp ph tp bp ratio) lpp) ph tp bp ratio)
        (filterLines (isHeaderText lpp ph tp bp ratio)
          (isFooterText lpp ph tp bp ratio) lpp) =
      filterLines (isHeaderText lpp ph tp bp ratio)
        (isFooterText lpp ph tp bp ratio) lpp := by
  apply filterLines_twice
  intro t hkeep
  unfold keepText
  rw [isHeaderText_filterLines _ _ _ _ _ _ _ _ hkeep,
    isFooterText_filterLines _ _ _ _ _ _ _ _ hkeep]
  exact hkeep


/-! ## C5: heading level assignment is pattern-first, size-second -/

/-- C5: `assign_level` implements exactly the claimed decision procedure:
explicit module/chapter patterns give level 1, the step pattern level 2, a
leading dotted numeral level `min 4 (2 + dot_count)`, otherwise a size delta
of at least 4 gives 1, at least 2 gives 2, at least 1 together with bold or
numbered gives 3, and anything else level 0 (body).  `assignLevelSpec` is
written from the claim's wording (with the pattern classes given by the
source regexes `RE_MODULE`/`RE_CHAPTER`/`RE_STEP`/`RE_NUMBERED`). -/
theorem c5_assign_level_matches_spec (f : LineFeat) (body : ℚ) :
    assignLevel f body = assignLevelSpec f body := by
  unfold assignLevel assignLevelSpec
  by_cases hm : matchModule f.text
  · simp [hm]
  · by_cases hc : matchChapter f.text
    · simp [hm, hc]
    · simp [hm, hc]

/-! ## C6: section context transitions -/

theorem stripCtxT_apply (c : CtxT) (e : CtxEvent) (n : Nat) :
    stripCtxT (ctxApplyT c e n) = ctxApply (stripCtxT c) e := by
  cases e with
  | heading lvl t => cases lvl <;> rfl
  | body => rfl

theorem stripCtxT_run (evs : List CtxEvent) :
    ∀ (n : Nat) (c : CtxT),
      stripCtxT (runCtxTAux n c evs) = evs.foldl ctxApply (stripCtxT c) := by
  induction evs with
  | nil => intro n c; rfl
  | cons e es ih =>
    intro n c
    show stripCtxT (runCtxTAux (n + 1) (ctxApplyT c e n) es) = _
    rw [ih, stripCtxT_apply]
    rfl

theorem timeLt_none_right (x : Option (String × Nat)) : TimeLt x none := by
  cases x <;> trivial

theorem ctxT_time_inv (evs : List CtxEvent) :
    ∀ (n : Nat) (c : CtxT),
      ((∀ p, c.title = some p → p.2 < n) ∧ (∀ p, c.h1 = some p → p.2 < n) ∧
        (∀ p, c.h2 = some p → p.2 < n)) →
      (TimeLt c.title c.h1 ∧ TimeLt c.h1 c.h2 ∧ TimeLt c.title c.h2) →
      ((∀ p, (runCtxTAux n c evs).title = some p → True) ∧
        TimeLt (runCtxTAux n c evs).title (runCtxTAux n c evs).h1 ∧
        TimeLt (runCtxTAux n c evs).h1 (runCtxTAux n c evs).h2 ∧
        TimeLt (runCtxTAux n c evs).title (runCtxTAux n c evs).h2) := by
  induction evs with
  | nil =>
    intro n c _ hord
    exact ⟨fun _ _ => trivial, hord.1, hord.2.1, hord.2.2⟩
  | cons e es ih =>
    intro n c hbound hord
    show ((∀ p, (runCtxTAux (n + 1) (ctxApplyT c e n) es).title = some p → True) ∧ _ ∧ _ ∧ _)
    apply ih (n + 1) (ctxApplyT c e n)
    · obtain ⟨hb1, hb2, hb3⟩ := hbound
      cases e with
      | body =>
        exact ⟨fun p hp => Nat.lt_succ_of_lt (hb1 p hp),
          fun p hp => Nat.lt_succ_of_lt (hb2 p hp),
          fun p hp => Nat.lt_succ_of_lt (hb3 p hp)⟩
      | heading lvl t =>
        cases lvl with
        | title =>
          refine ⟨?_, ?_, ?_⟩ <;> intro p hp <;> simp [ctxApplyT] at hp
          subst hp
          exact Nat.lt_succ_self n
        | h1 =>
          refine ⟨?_, ?_, ?_⟩ <;> intro p hp <;> simp [ctxApplyT] at hp
          · exact Nat.lt_succ_of_lt (hb1 p hp)
          · subst hp
            exact Nat.lt_succ_self n
        | h2 =>
          refine ⟨?_, ?_, ?_⟩ <;> intro p hp <;> simp [ctxApplyT] at hp
          · exact Nat.lt_succ_of_lt (hb1 p hp)
          · exact Nat.lt_succ_of_lt (hb2 p hp)
          · subst hp
            exact Nat.lt_succ_self n
    · obtain ⟨hb1, hb2, hb3⟩ := hbound
      cases e with
      | body => exact hord
      | heading lvl t =>
        cases lvl with
        | title => exact ⟨timeLt_none_right _, timeLt_none_right _, timeLt_none_right _⟩
        | h1 =>
          refine ⟨?_, timeLt_none_right _, timeLt_none_right _⟩
          show TimeLt c.title (some (t, n))
          cases hc : c.title with
          | none => trivial
          | some p => exact hb1 p hc
        | h2 =>
          refine ⟨hord.1, ?_, ?_⟩
          · show TimeLt c.h1 (some (t, n))
            cases hc : c.h1 with
            | none => trivial
            | some p => exact hb2 p hc
          · show TimeLt c.title (some (t, n))
            cases hc : c.title with
            | none => trivial
            | some p => exact hb1 p hc

/-- C6: the section-context tracker.  (i) The transition function sets the
observed heading's slot and clears every deeper slot while leaving shallower
slots unchanged, and body events change nothing; (ii) running the (time
instrumented) machine over any event stream, whenever two slots are both
filled the deeper one was set by a strictly later event than the shallower
one; (iii) the instrumented machine projects to the source transition
function. -/
theorem c6_section_context (evs : List CtxEvent) :
    stripCtxT (runCtxT evs) = evs.foldl ctxApply ctx0 ∧
    TimeLt (runCtxT evs).title (runCtxT evs).h1 ∧
    TimeLt (runCtxT evs).h1 (runCtxT evs).h2 ∧
    TimeLt (runCtxT evs).title (runCtxT evs).h2 ∧
    (∀ c t, ctxApply c (CtxEvent.heading CtxLevel.title t) =
      { title := some t, h1 := none, h2 := none }) ∧
    (∀ c t, ctxApply c (CtxEvent.heading CtxLevel.h1 t) =
      { title := c.title, h1 := some t, h2 := none }) ∧
    (∀ c t, ctxApply c (CtxEvent.heading CtxLevel.h2 t) =
      { title := c.title, h1 := c.h1, h2 := some t }) ∧
    (∀ c, ctxApply c CtxEvent.body = c) := by
  have hinv := ctxT_time_inv evs 0 ctx0T
    (by exact ⟨fun p hp => by simp [ctx0T] at hp, fun p hp => by simp [ctx0T] at hp,
      fun p hp => by simp [ctx0T] at hp⟩)
    ⟨trivial, trivial, trivial⟩
  refine ⟨?_, hinv.2.1, hinv.2.2.1, hinv.2.2.2, fun c t => rfl, fun c t => rfl,
    fun c t => rfl, fun c => rfl⟩
  exact stripCtxT_run evs 0 ctx0T


/-! ## C8: body font size estimation -/

theorem mem_firstOccsAux (x : ℚ) :
    ∀ (fuel : Nat) (l : List ℚ), l.length ≤ fuel →
      (x ∈ firstOccsAux fuel l ↔ x ∈ l) := by
  intro fuel
  induction fuel with
  | zero =>
    intro l hl
    rw [Nat.le_zero, List.length_eq_zero] at hl
    subst hl
    simp [firstOccsAux]
  | succ fuel ih =>
    intro l hl
    cases l with
    | nil => simp [firstOccsAux]
    | cons y t =>
      have hlen : (t.filter (fun z => z ≠ y)).length ≤ fuel := by
        have := List.length_filter_le (fun z => z ≠ y) t
        simp only [List.length_cons] at hl
        omega
      simp only [firstOccsAux, List.mem_cons, ih _ hlen, List.mem_filter]
      constructor
      · rintro (h | ⟨h, _⟩)
        · exact Or.inl h
        · exact Or.inr h
      · rintro (h | h)
        · exact Or.inl h
        · by_cases hxy : x = y
          · exact Or.inl hxy
          · exact Or.inr ⟨h, by simpa using hxy⟩

theorem mem_firstOccs (x : ℚ) (l : List ℚ) : x ∈ firstOccs l ↔ x ∈ l :=
  mem_firstOccsAux x l.length l le_rfl

theorem le_foldl_max (l : List Nat) : ∀ (a : Nat), a ≤ l.foldl max a := by
  induction l with
  | nil => intro a; exact le_rfl
  | cons x t ih =>
    intro a
    exact le_trans (Nat.le_max_left a x) (ih (max a x))

theorem mem_le_foldl_max (l : List Nat) :
    ∀ (a x : Nat), x ∈ l → x ≤ l.foldl max a := by
  induction l with
  | nil => intro a x hx; simp at hx
  | cons y t ih =>
    intro a x hx
    rcases List.mem_cons.mp hx with h | h
    · subst h
      exact le_trans (Nat.le_max_right a x) (le_foldl_max t (max a x))
    · exact ih (max a y) x h

theorem foldl_max_mem (l : List Nat) :
    ∀ (a : Nat), l.foldl max a = a ∨ l.foldl max a ∈ l := by
  induction l with
  | nil => intro a; exact Or.inl rfl
  | cons y t ih =>
    intro a
    rcases ih (max a y) with h | h
    · rcases max_choice a y with hm | hm
      · exact Or.inl (by rw [List.foldl_cons, h, hm])
      · exact Or.inr (by rw [List.foldl_cons, h, hm]; exact List.mem_cons_self y t)
    · exact Or.inr (List.mem_cons_of_mem y h)

theorem mostCommon_spec (l : List ℚ) (hne : l ≠ []) :
    mostCommon l ∈ l ∧ ∀ s ∈ l, l.count s ≤ l.count (mostCommon l) := by
  have hall : ∀ s ∈ l, l.count s ≤
      ((firstOccs l).map (fun y => l.count y)).foldl max 0 := by
    intro s hs
    apply mem_le_foldl_max
    exact List.mem_map_of_mem _ ((mem_firstOccs s l).mpr hs)
  have hex : ∃ y ∈ firstOccs l,
      l.count y = ((firstOccs l).map (fun y => l.count y)).foldl max 0 := by
    obtain ⟨x0, hx0⟩ := List.exists_mem_of_ne_nil l hne
    have hcx0 : 0 < l.count x0 := List.count_pos_iff.mpr hx0
    have hpos : 0 < ((firstOccs l).map (fun y => l.count y)).foldl max 0 :=
      lt_of_lt_of_le hcx0 (hall x0 hx0)
    rcases foldl_max_mem ((firstOccs l).map (fun y => l.count y)) 0 with h | h
    · omega
    · obtain ⟨y, hy, hcy⟩ := List.mem_map.mp h
      exact ⟨y, hy, hcy⟩
  obtain ⟨y, hy, hcy⟩ := hex
  have hfind : ((firstOccs l).find?
      (fun x => l.count x =
        (((firstOccs l).map (fun y => l.count y)).foldl max 0))).isSome := by
    rw [List.find?_isSome]
    exact ⟨y, hy, by simp [hcy]⟩
  obtain ⟨z, hz⟩ := Option.isSome_iff_exists.mp hfind
  have hmc : mostCommon l = z := by
    unfold mostCommon
    rw [hz]
  have hzmem : z ∈ firstOccs l := List.mem_of_find?_eq_some hz
  have hzcount : l.count z = ((firstOccs l).map (fun y => l.count y)).foldl max 0 := by
    have := List.find?_some hz
    simpa using this
  rw [hmc]
  constructor
  · exact (mem_firstOccs z l).mp hzmem
  · intro s hs
    rw [hzcount]
    exact hall s hs

/-- C8, amended theorem: `estimate_body_font_size` is computed once per
document over all pages' spans: it equals the fixed default 10.0 exactly when
no span with a stripped text of at least 25 characters (and a truthy size) is
observed, and otherwise it is one of the observed rounded-to-0.1 sizes and has
maximal multiplicity among them (the "most frequent" dominant size). -/
theorem c8_estimate_body_font_size_dominant (doc : List (List (List (List Span)))) :
    (collectBodySizes doc = [] → estimateBodyFontSize doc = 10) ∧
    (collectBodySizes doc ≠ [] →
      estimateBodyFontSize doc ∈ collectBodySizes doc ∧
      ∀ s ∈ collectBodySizes doc,
        (collectBodySizes doc).count s ≤
          (collectBodySizes doc).count (estimateBodyFontSize doc)) := by
  constructor
  · intro h
    unfold estimateBodyFontSize
    simp [h]
  · intro h
    unfold estimateBodyFontSize
    rw [if_neg (by simpa using h)]
    exact mostCommon_spec _ h

/-- C8, witness: a document with one long-text span of size 9, applying
the dominance theorem. -/
theorem c8_estimate_body_font_size_dominant_witness :
    estimateBodyFontSize sampleDoc935 ∈ collectBodySizes sampleDoc935 ∧
    ∀ s ∈ collectBodySizes sampleDoc935,
      (collectBodySizes sampleDoc935).count s ≤
        (collectBodySizes sampleDoc935).count (estimateBodyFontSize sampleDoc935) :=
  (c8_estimate_body_font_size_dominant sampleDoc935).2 (by decide)

/-- C8, counterexample: the designing_ai extractors recompute the body size
per page (not once per document), with no long-text filter and fallback 0.0
(not 10.0): two pages of the same document get different baselines (9 vs 12,
from 3-character spans), and a page with no sizes yields 0. -/
theorem c8_counterexample :
    pageBodyFontSize [[[(⟨"abc", "", 9⟩ : Span)]]] = 9 ∧
    pageBodyFontSize [[[(⟨"xyz", "", 12⟩ : Span)]]] = 12 ∧
    (9 : ℚ) ≠ 12 ∧
    pageBodyFontSize [] = 0 ∧
    collectBodySizes [[[[(⟨"abc", "", 9⟩ : Span)]]]] = [] := by
  refine ⟨by decide, by decide, by decide, by decide, by decide⟩


/-! ## C10: the outline builder never pops the synthetic ROOT -/

theorem mem_dedupAux (h : Heading) :
    ∀ (l : List Heading) (prev : Option (String × Nat × Nat)),
      h ∈ dedupAux prev l → h ∈ l := by
  intro l
  induction l with
  | nil => intro prev hh; simp [dedupAux] at hh
  | cons x t ih =>
    intro prev hh
    unfold dedupAux at hh
    by_cases hk : some (pyLower x.title, x.level, x.page) = prev
    · rw [if_pos hk] at hh
      exact List.mem_cons_of_mem x (ih prev hh)
    · rw [if_neg hk] at hh
      rcases List.mem_cons.mp hh with h1 | h1
      · exact h1 ▸ List.mem_cons_self x t
      · exact List.mem_cons_of_mem x (ih _ h1)

theorem lineHeading_level (body minScore : ℚ) (pageNo : Nat) (line : List Span)
    (h : Heading) (hh : lineHeading body minScore pageNo line = some h) :
    1 ≤ h.level := by
  unfold lineHeading at hh
  cases hf : lineFeatures line with
  | none => rw [hf] at hh; exact absurd hh (by simp)
  | some feat =>
    rw [hf] at hh
    dsimp only at hh
    by_cases hs : headingScore feat body < minScore
    · rw [if_pos hs] at hh
      exact absurd hh (by simp)
    · rw [if_neg hs] at hh
      by_cases hl : assignLevel feat body = 0
      · rw [if_pos hl] at hh
        exact absurd hh (by simp)
      · rw [if_neg hl] at hh
        have := Option.some.inj hh
        rw [← this]
        exact Nat.one_le_iff_ne_zero.mpr hl

theorem extractHeadings_level (doc : List (List (List (List Span)))) (minScore : ℚ)
    (h : Heading) (hh : h ∈ extractHeadings doc minScore) : 1 ≤ h.level := by
  unfold extractHeadings dedupHeadings at hh
  have hmem := mem_dedupAux h _ none hh
  rw [List.mem_flatten] at hmem
  obtain ⟨l, hl, hhl⟩ := hmem
  rw [List.mem_map] at hl
  obtain ⟨pi, _, hpi⟩ := hl
  rw [← hpi] at hhl
  unfold pageHeadings at hhl
  rw [List.mem_filterMap] at hhl
  obtain ⟨line, _, hline⟩ := hhl
  exact lineHeading_level _ _ _ _ h hline

theorem tree_val_addChild {α : Type} (t c : Tree α) : (t.addChild c).val = t.val := by
  cases t; rfl

theorem popAttach_root_safe {α : Type} (lvlOf : α → Nat) (lvl : Nat) (hl : 0 < lvl) :
    ∀ (n : Nat) (S0 : List (Tree α)), S0.length ≤ n → ∀ (r : Tree α), lvlOf r.val = 0 →
      ∃ S0' r', popAttach lvlOf lvl (S0 ++ [r]) = some (S0' ++ [r']) ∧
        r'.val = r.val ∧ ∀ u ∈ S0', u.val ∈ S0.map Tree.val := by
  intro n
  induction n with
  | zero =>
    intro S0 hlen r hr
    rw [Nat.le_zero, List.length_eq_zero] at hlen
    subst hlen
    refine ⟨[], r, ?_, rfl, by simp⟩
    simp only [List.nil_append]
    rw [popAttach, hr, if_neg (by omega)]
  | succ n ih =>
    intro S0 hlen r hr
    cases S0 with
    | nil =>
      refine ⟨[], r, ?_, rfl, by simp⟩
      simp only [List.nil_append]
      rw [popAttach, hr, if_neg (by omega)]
    | cons t rest0 =>
      cases rest0 with
      | nil =>
        show ∃ S0' r', popAttach lvlOf lvl (t :: [r]) = _ ∧ _ ∧ _
        by_cases hc : lvl ≤ lvlOf t.val
        · have hstep : popAttach lvlOf lvl (t :: [r]) =
              popAttach lvlOf lvl ([] ++ [r.addChild t]) := by
            rw [popAttach]
            simp [hc]
          obtain ⟨S0', r', heq, hval, hsub⟩ :=
            ih [] (by simp) (r.addChild t) (by rw [tree_val_addChild]; exact hr)
          exact ⟨S0', r', by rw [hstep, heq], by rw [hval, tree_val_addChild], by
            intro u hu
            exact absurd (hsub u hu) (by simp)⟩
        · refine ⟨[t], r, ?_, rfl, by simp⟩
          show popAttach lvlOf lvl (t :: [r]) = some ([t] ++ [r])
          rw [popAttach]
          simp [hc]
      | cons t2 rest0' =>
        by_cases hc : lvl ≤ lvlOf t.val
        · have hstep : popAttach lvlOf lvl ((t :: t2 :: rest0') ++ [r]) =
              popAttach lvlOf lvl ((t2.addChild t :: rest0') ++ [r]) := by
            simp only [List.cons_append]
            rw [popAttach]
            simp [hc]
          obtain ⟨S0', r', heq, hval, hsub⟩ :=
            ih (t2.addChild t :: rest0') (by simp at hlen ⊢; omega) r hr
          refine ⟨S0', r', by rw [hstep, heq], hval, ?_⟩
          intro u hu
          have := hsub u hu
          simp only [List.map_cons, List.mem_cons, tree_val_addChild] at this ⊢
          rcases this with h1 | h1
          · exact Or.inr (Or.inl h1)
          · exact Or.inr (Or.inr h1)
        · refine ⟨t :: t2 :: rest0', r, ?_, rfl,
            fun u hu => List.mem_map_of_mem Tree.val hu⟩
          simp only [List.cons_append]
          rw [popAttach]
          simp [hc]

theorem foldStack_root_safe {α : Type} (lvlOf : α → Nat) :
    ∀ (xs : List α), (∀ x ∈ xs, 1 ≤ lvlOf x) →
      ∀ (S0 : List (Tree α)) (r : Tree α), lvlOf r.val = 0 →
        (∀ u ∈ S0, 1 ≤ lvlOf u.val) →
        ∃ S0' r', foldStack lvlOf xs (S0 ++ [r]) = some (S0' ++ [r']) ∧
          r'.val = r.val ∧ ∀ u ∈ S0', 1 ≤ lvlOf u.val := by
  intro xs
  induction xs with
  | nil =>
    intro _ S0 r hr hS0
    exact ⟨S0, r, rfl, rfl, hS0⟩
  | cons x xs' ih =>
    intro hx S0 r hr hS0
    have hlx : 0 < lvlOf x := hx x (List.mem_cons_self x xs')
    obtain ⟨S0'', r'', hpop, hval, hsub⟩ :=
      popAttach_root_safe lvlOf (lvlOf x) hlx S0.length S0 le_rfl r hr
    have hS0'' : ∀ u ∈ S0'', 1 ≤ lvlOf u.val := by
      intro u hu
      obtain ⟨v, hv, hveq⟩ := List.mem_map.mp (hsub u hu)
      rw [← hveq]
      exact hS0 v hv
    have hstep : foldStack lvlOf (x :: xs') (S0 ++ [r]) =
        foldStack lvlOf xs' ((Tree.node x [] :: S0'') ++ [r'']) := by
      show (match stepTree lvlOf (S0 ++ [r]) x with
        | none => none
        | some s' => foldStack lvlOf xs' s') = _
      unfold stepTree
      rw [hpop]
      rfl
    rw [hstep]
    obtain ⟨S0', r', heq, hval', hS0'⟩ :=
      ih (fun y hy => hx y (List.mem_cons_of_mem x hy)) (Tree.node x [] :: S0'') r''
        (by rw [hval]; exact hr)
        (by
          intro u hu
          rcases List.mem_cons.mp hu with h1 | h1
          · rw [h1]; exact hlx
          · exact hS0'' u h1)
    exact ⟨S0', r', heq, by rw [hval', hval], hS0'⟩

theorem collapseStack_last {α : Type} :
    ∀ (n : Nat) (S0 : List (Tree α)), S0.length ≤ n → ∀ (r : Tree α),
      ∃ t, collapseStack (S0 ++ [r]) = some t ∧ t.val = r.val := by
  intro n
  induction n with
  | zero =>
    intro S0 hlen r
    rw [Nat.le_zero, List.length_eq_zero] at hlen
    subst hlen
    exact ⟨r, by simp [collapseStack], rfl⟩
  | succ n ih =>
    intro S0 hlen r
    cases S0 with
    | nil => exact ⟨r, by simp [collapseStack], rfl⟩
    | cons t rest0 =>
      cases rest0 with
      | nil =>
        obtain ⟨t', heq, hval⟩ := ih [] (by simp) (r.addChild t)
        refine ⟨t', ?_, by rw [hval, tree_val_addChild]⟩
        show collapseStack (t :: [r]) = some t'
        rw [show collapseStack (t :: [r]) = collapseStack ([] ++ [r.addChild t]) from by
          simp [collapseStack]]
        exact heq
      | cons t2 rest0' =>
        obtain ⟨t', heq, hval⟩ := ih (t2.addChild t :: rest0') (by simp at hlen ⊢; omega) r
        refine ⟨t', ?_, hval⟩
        rw [show collapseStack ((t :: t2 :: rest0') ++ [r]) =
            collapseStack ((t2.addChild t :: rest0') ++ [r]) from by
          simp [collapseStack]]
        exact heq

/-- C10: (i) every heading produced by `extract_headings` has level at least 1
(level-0 lines are discarded); (ii) for every heading list whose levels are
all at least 1, `build_tree` never pops the synthetic ROOT (level 0): the
stack stays non-empty, every `stack[-1]` access succeeds, and the returned
tree is rooted at ROOT. -/
theorem c10_root_never_popped :
    (∀ (doc : List (List (List (List Span)))) (minScore : ℚ) (h : Heading),
        h ∈ extractHeadings doc minScore → 1 ≤ h.level) ∧
    (∀ hs : List Heading, (∀ h ∈ hs, 1 ≤ h.level) →
        ∃ t, buildTree hs = some t ∧ t.val = rootHVal) := by
  constructor
  · exact fun doc ms h hh => extractHeadings_level doc ms h hh
  · intro hs hb
    unfold buildTree buildTreeG
    obtain ⟨S0', r', heq, hval, _⟩ :=
      foldStack_root_safe (fun v : HVal => v.level) (hs.map hvalOfHeading)
        (by
          intro x hx
          obtain ⟨h, hh, hxeq⟩ := List.mem_map.mp hx
          rw [← hxeq]
          exact hb h hh)
        [] (Tree.node rootHVal []) rfl (by simp)
    rw [List.nil_append] at heq
    rw [heq]
    obtain ⟨t, hteq, htval⟩ := collapseStack_last S0'.length S0' le_rfl r'
    exact ⟨t, hteq, by rw [htval, hval]; rfl⟩

/-- C10, witness: a two-heading list with levels 1 and 2. -/
theorem c10_root_never_popped_witness :
    ∃ t, buildTree [{ title := "A", level := 1, page := 1, score := 0 },
        { title := "B", level := 2, page := 1, score := 0 }] = some t ∧
      t.val = rootHVal :=
  c10_root_never_popped.2 _ (by decide)


/-! ## C7: outline tree parent/child structure -/

theorem tree_map_node {α β : Type} (f : α → β) (v : α) (cs : List (Tree α)) :
    Tree.map f (Tree.node v cs) = Tree.node (f v) (cs.map (Tree.map f)) := by
  rw [Tree.map]
  congr 1
  exact List.attach_map_val cs (fun c => Tree.map f c)

theorem tree_val_map {α β : Type} (f : α → β) (t : Tree α) :
    (Tree.map f t).val = f t.val := by
  cases t
  rw [tree_map_node]
  rfl

theorem addChild_map {α β : Type} (f : α → β) (t c : Tree α) :
    (t.addChild c).map f = (t.map f).addChild (c.map f) := by
  cases t with
  | node v cs =>
    show Tree.map f (Tree.node v (cs ++ [c])) = _
    rw [tree_map_node, tree_map_node]
    simp [Tree.addChild]

theorem popAttach_map {α β : Type} (f : α → β) (lvl1 : α → Nat) (lvl2 : β → Nat)
    (hf : ∀ x, lvl2 (f x) = lvl1 x) (L : Nat) :
    ∀ (n : Nat) (S : List (Tree α)), S.length ≤ n →
      popAttach lvl2 L (S.map (Tree.map f)) =
        (popAttach lvl1 L S).map (List.map (Tree.map f)) := by
  intro n
  induction n with
  | zero =>
    intro S hlen
    rw [Nat.le_zero, List.length_eq_zero] at hlen
    subst hlen
    simp [popAttach]
  | succ n ih =>
    intro S hlen
    cases S with
    | nil => simp [popAttach]
    | cons t rest =>
      cases rest with
      | nil =>
        show popAttach lvl2 L [Tree.map f t] = _
        rw [popAttach, popAttach, tree_val_map, hf]
        by_cases hc : L ≤ lvl1 t.val
        · rw [if_pos hc, if_pos hc]
          rfl
        · rw [if_neg hc, if_neg hc]
          rfl
      | cons t2 rest2 =>
        show popAttach lvl2 L (Tree.map f t :: Tree.map f t2 :: rest2.map (Tree.map f)) = _
        rw [popAttach, tree_val_map, hf]
        by_cases hc : L ≤ lvl1 t.val
        · rw [if_pos hc]
          rw [show (Tree.map f t2).addChild (Tree.map f t) = Tree.map f (t2.addChild t) from
            (addChild_map f t2 t).symm]
          rw [show (Tree.map f (t2.addChild t) :: rest2.map (Tree.map f)) =
            (t2.addChild t :: rest2).map (Tree.map f) from rfl]
          rw [ih (t2.addChild t :: rest2) (by simp at hlen ⊢; omega)]
          conv_rhs => rw [popAttach]
          rw [if_pos hc]
        · rw [if_neg hc]
          conv_rhs => rw [popAttach]
          rw [if_neg hc]
          rfl

theorem stepTree_map {α β : Type} (f : α → β) (lvl1 : α → Nat) (lvl2 : β → Nat)
    (hf : ∀ x, lvl2 (f x) = lvl1 x) (S : List (Tree α)) (x : α) :
    stepTree lvl2 (S.map (Tree.map f)) (f x) =
      (stepTree lvl1 S x).map (List.map (Tree.map f)) := by
  unfold stepTree
  rw [hf, popAttach_map f lvl1 lvl2 hf (lvl1 x) S.length S le_rfl]
  cases popAttach lvl1 (lvl1 x) S with
  | none => rfl
  | some s =>
    show some (Tree.node (f x) [] :: s.map (Tree.map f)) = some ((Tree.node x [] :: s).map _)
    rw [List.map_cons, tree_map_node]
    rfl

theorem foldStack_map {α β : Type} (f : α → β) (lvl1 : α → Nat) (lvl2 : β → Nat)
    (hf : ∀ x, lvl2 (f x) = lvl1 x) :
    ∀ (xs : List α) (S : List (Tree α)),
      foldStack lvl2 (xs.map f) (S.map (Tree.map f)) =
        (foldStack lvl1 xs S).map (List.map (Tree.map f)) := by
  intro xs
  induction xs with
  | nil => intro S; rfl
  | cons x xs' ih =>
    intro S
    have hlhs : foldStack lvl2 ((x :: xs').map f) (S.map (Tree.map f)) =
        (match stepTree lvl2 (S.map (Tree.map f)) (f x) with
          | none => none
          | some s' => foldStack lvl2 (xs'.map f) s') := rfl
    have hrhs : foldStack lvl1 (x :: xs') S =
        (match stepTree lvl1 S x with
          | none => none
          | some s' => foldStack lvl1 xs' s') := rfl
    rw [hlhs, hrhs, stepTree_map f lvl1 lvl2 hf]
    cases stepTree lvl1 S x with
    | none => rfl
    | some s' => exact ih s' 

theorem collapseStack_map {α β : Type} (f : α → β) :
    ∀ (n : Nat) (S : List (Tree α)), S.length ≤ n →
      collapseStack (S.map (Tree.map f)) = (collapseStack S).map (Tree.map f) := by
  intro n
  induction n with
  | zero =>
    intro S hlen
    rw [Nat.le_zero, List.length_eq_zero] at hlen
    subst hlen
    simp [collapseStack]
  | succ n ih =>
    intro S hlen
    cases S with
    | nil => simp [collapseStack]
    | cons t rest =>
      cases rest with
      | nil => simp [collapseStack]
      | cons t2 rest2 =>
        show collapseStack (Tree.map f t :: Tree.map f t2 :: rest2.map (Tree.map f)) = _
        rw [collapseStack]
        rw [show (Tree.map f t2).addChild (Tree.map f t) = Tree.map f (t2.addChild t) from
          (addChild_map f t2 t).symm]
        rw [show (Tree.map f (t2.addChild t) :: rest2.map (Tree.map f)) =
          (t2.addChild t :: rest2).map (Tree.map f) from rfl]
        rw [ih (t2.addChild t :: rest2) (by simp at hlen ⊢; omega)]
        have hr : collapseStack (t :: t2 :: rest2) = collapseStack (t2.addChild t :: rest2) := by
          rw [collapseStack]
        rw [hr]

theorem buildTreeG_map {α β : Type} (f : α → β) (lvl1 : α → Nat) (lvl2 : β → Nat)
    (hf : ∀ x, lvl2 (f x) = lvl1 x) (root : α) (xs : List α) :
    buildTreeG lvl2 (f root) (xs.map f) = (buildTreeG lvl1 root xs).map (Tree.map f) := by
  unfold buildTreeG
  rw [show [Tree.node (f root) []] = [Tree.node root []].map (Tree.map f) from by
    rw [List.map_cons, tree_map_node]; rfl]
  rw [foldStack_map f lvl1 lvl2 hf]
  cases foldStack lvl1 xs [Tree.node root []] with
  | none => rfl
  | some s =>
    show collapseStack (s.map (Tree.map f)) = _
    rw [collapseStack_map f s.length s le_rfl]

/-- The real `build_tree` result is the index-erased image of the
index-instrumented build. -/
theorem buildTree_eq_map_idx (hs : List Heading) :
    buildTree hs = (buildTreeIdx hs).map (Tree.map eraseIdx) := by
  unfold buildTree buildTreeIdx
  have hf : ∀ x : Option (Nat × Heading), HVal.level (eraseIdx x) = idxLevel x := by
    intro x
    match x with
    | none => rfl
    | some (i, h) => rfl
  have hxs : hs.map hvalOfHeading = (hs.enum.map (fun p => some p)).map eraseIdx := by
    rw [List.map_map]
    have : (eraseIdx ∘ fun p => some p) = (fun p : Nat × Heading => hvalOfHeading p.2) := by
      funext p
      rfl
    rw [this]
    have := List.enum_map_snd hs
    calc hs.map hvalOfHeading = (hs.enum.map Prod.snd).map hvalOfHeading := by
          rw [List.enum_map_snd]
      _ = hs.enum.map (fun p => hvalOfHeading p.2) := by rw [List.map_map]; rfl
  rw [hxs]
  exact buildTreeG_map eraseIdx idxLevel (fun v => v.level) hf none (hs.enum.map (fun p => some p))


theorem levelAt_of_get? (hs : List Heading) (j : Nat) (h : Heading)
    (hget : hs.get? j = some h) : levelAt hs j = h.level := by
  unfold levelAt
  have hj : j < hs.length := List.get?_eq_some.mp hget |>.1
  rw [List.getD_eq_getElem?_getD, List.getElem?_map]
  rw [← List.get?_eq_getElem?, hget]
  rfl

theorem pairsOK_addChild {α : Type} (R : α → α → Prop) (t c : Tree α)
    (ht : PairsOK R t) (hc : PairsOK R c) (hr : R t.val c.val) :
    PairsOK R (t.addChild c) := by
  cases t with
  | node v cs =>
    cases ht with
    | node _ _ h1 h2 =>
      refine PairsOK.node v (cs ++ [c]) ?_ ?_
      · intro x hx
        rcases List.mem_append.mp hx with h | h
        · exact h1 x h
        · rw [List.mem_singleton.mp h]
          exact hr
      · intro x hx
        rcases List.mem_append.mp hx with h | h
        · exact h2 x h
        · rw [List.mem_singleton.mp h]
          exact hc

theorem filter_range_getLast?_none (p : Nat → Bool) (i : Nat)
    (h : ∀ j, j < i → p j = false) : ((List.range i).filter p).getLast? = none := by
  have : (List.range i).filter p = [] := by
    rw [List.filter_eq_nil_iff]
    intro j hj
    rw [h j (List.mem_range.mp hj)]
    simp
  rw [this]
  rfl

theorem filter_range_getLast?_aux (p : Nat → Bool) (js : Nat) (h2 : p js = true) :
    ∀ m : Nat, (∀ j, js < j → j < js + 1 + m → p j = false) →
      ((List.range (js + 1 + m)).filter p).getLast? = some js := by
  intro m
  induction m with
  | zero =>
    intro _
    rw [show js + 1 + 0 = js + 1 from rfl, List.range_succ, List.filter_append]
    have : List.filter p [js] = [js] := by simp [h2]
    rw [this, List.getLast?_concat]
  | succ m ih =>
    intro h3
    rw [show js + 1 + (m + 1) = (js + 1 + m) + 1 from by omega, List.range_succ,
      List.filter_append]
    have hp : p (js + 1 + m) = false := h3 _ (by omega) (by omega)
    have : List.filter p [js + 1 + m] = [] := by simp [hp]
    rw [this, List.append_nil]
    exact ih (fun j hj1 hj2 => h3 j hj1 (by omega))

theorem filter_range_getLast?_some (p : Nat → Bool) (i js : Nat)
    (h1 : js < i) (h2 : p js = true) (h3 : ∀ j, js < j → j < i → p j = false) :
    ((List.range i).filter p).getLast? = some js := by
  obtain ⟨m, rfl⟩ : ∃ m, i = js + 1 + m := ⟨i - (js + 1), by omega⟩
  exact filter_range_getLast?_aux p js h2 m h3

theorem stackInvP_weaken (hs : List Heading) (i : Nat) (l : Nat)
    (S : List (Tree (Option (Nat × Heading)))) (inv : StackInvP hs i none S) :
    StackInvP hs i (some l) S := by
  refine ⟨inv.nonempty, inv.bottomRoot, inv.uppersSome, inv.chain, inv.uppers,
    inv.pairs, inv.wf, ?_⟩
  intro j hj
  rcases inv.comp j hj with h | h | h
  · exact Or.inl h
  · exact Or.inr (Or.inl h)
  · obtain ⟨l', hl', _⟩ := h
    exact absurd hl' (by simp)


theorem popAttach_inv (hs : List Heading) (i l : Nat) (hl : 0 < l) :
    ∀ (n : Nat) (S : List (Tree (Option (Nat × Heading)))), S.length ≤ n →
      StackInvP hs i (some l) S →
      ∃ S', popAttach idxLevel l S = some S' ∧ StackInvP hs i (some l) S' ∧
        ∀ u, S'.head? = some u → idxLevel u.val < l := by
  intro n
  induction n with
  | zero =>
    intro S hlen inv
    exact absurd (List.length_eq_zero.mp (Nat.le_zero.mp hlen)) inv.nonempty
  | succ n ih =>
    intro S hlen inv
    cases S with
    | nil => exact absurd rfl inv.nonempty
    | cons t rest =>
      cases rest with
      | nil =>
        have hval : t.val = none := by
          have := inv.bottomRoot
          simp at this
          exact this
        refine ⟨[t], ?_, inv, ?_⟩
        · rw [popAttach, hval]
          rw [if_neg (by simp [idxLevel]; omega)]
        · intro u hu
          have h1 : t = u := by simpa using hu
          rw [← h1, hval]
          simpa [idxLevel] using hl
      | cons t2 rest2 =>
        by_cases hc : l ≤ idxLevel t.val
        · have hchain2 : List.Chain' (fun a b => C7Rel hs b.val a.val) (t2 :: rest2) :=
            (List.chain'_cons'.mp inv.chain).2
          have hlink : C7Rel hs t2.val t.val := by
            have := (List.chain'_cons'.mp inv.chain).1
            exact this t2 (by simp)
          have hup2 : List.Pairwise (fun a b => idxLevel b.val < idxLevel a.val ∧
              ∀ j h, b.val = some (j, h) → ∃ j2 h2, a.val = some (j2, h2) ∧ j < j2)
              (t2 :: rest2) := (List.pairwise_cons.mp inv.uppers).2
          have hinv1 : StackInvP hs i (some l) (t2.addChild t :: rest2) := by
            refine ⟨by simp, ?_, ?_, ?_, ?_, ?_, ?_, ?_⟩
            · cases rest2 with
              | nil =>
                have := inv.bottomRoot
                simp at this ⊢
                rw [tree_val_addChild]
                exact this
              | cons r3 rest3 =>
                have := inv.bottomRoot
                rw [List.getLast?_cons_cons, List.getLast?_cons_cons] at this
                rw [List.getLast?_cons_cons]
                exact this
            · cases rest2 with
              | nil => intro u hu; simp at hu
              | cons r3 rest3 =>
                intro u hu
                rw [List.dropLast_cons₂, List.mem_cons] at hu
                rcases hu with hu | hu
                · rw [hu, tree_val_addChild]
                  refine inv.uppersSome t2 ?_
                  rw [List.dropLast_cons₂, List.dropLast_cons₂, List.mem_cons]
                  exact Or.inr (List.mem_cons_self t2 _)
                · refine inv.uppersSome u ?_
                  rw [List.dropLast_cons₂, List.dropLast_cons₂]
                  exact List.mem_cons_of_mem t (List.mem_cons_of_mem t2 hu)
            · rw [List.chain'_cons']
              constructor
              · intro y hy
                show C7Rel hs y.val (t2.addChild t).val
                rw [tree_val_addChild]
                exact (List.chain'_cons'.mp hchain2).1 y hy
              · exact (List.chain'_cons'.mp hchain2).2
            · rw [List.pairwise_cons]
              constructor
              · intro b hb
                have := (List.pairwise_cons.mp hup2).1 b hb
                rw [tree_val_addChild]
                exact this
              · exact (List.pairwise_cons.mp hup2).2
            · intro u hu
              rcases List.mem_cons.mp hu with hu | hu
              · rw [hu]
                refine pairsOK_addChild _ t2 t ?_ ?_ hlink
                · exact inv.pairs t2 (by simp)
                · exact inv.pairs t (by simp)
              · exact inv.pairs u (by simp [hu])
            · intro u hu j h huv
              rcases List.mem_cons.mp hu with hu | hu
              · rw [hu, tree_val_addChild] at huv
                exact inv.wf t2 (by simp) j h huv
              · exact inv.wf u (by simp [hu]) j h huv
            · intro j hj
              rcases inv.comp j hj with h | h | h
              · exact Or.inl h
              · obtain ⟨u', hu', h', huv⟩ := h
                rcases List.mem_cons.mp hu' with hu' | hu'
                · rw [hu'] at huv
                  have hget := (inv.wf t (List.mem_cons_self _ _) j h' huv).1
                  refine Or.inr (Or.inr ⟨l, rfl, ?_⟩)
                  rw [levelAt_of_get? hs j h' hget]
                  have hidx : idxLevel t.val = h'.level := by rw [huv]; rfl
                  omega
                · rcases List.mem_cons.mp hu' with hu2 | hu2
                  · refine Or.inr (Or.inl ⟨t2.addChild t, by simp, h', ?_⟩)
                    rw [tree_val_addChild, ← hu2]
                    exact huv
                  · exact Or.inr (Or.inl ⟨u', by simp [hu2], h', huv⟩)
              · exact Or.inr (Or.inr h)
          obtain ⟨S', heq, hinv', htop⟩ :=
            ih (t2.addChild t :: rest2) (by simp at hlen ⊢; omega) hinv1
          refine ⟨S', ?_, hinv', htop⟩
          rw [popAttach, if_pos hc]
          exact heq
        · refine ⟨t :: t2 :: rest2, ?_, inv, ?_⟩
          · rw [popAttach, if_neg hc]
          · intro u hu
            have h1 : t = u := by simpa using hu
            rw [← h1]
            omega


theorem stack_covers (hs : List Heading) (i l : Nat)
    (S : List (Tree (Option (Nat × Heading))))
    (inv : StackInvP hs i (some l) S) :
    ∀ d j, i - j ≤ d → j < i → levelAt hs j < l →
      ∃ k, j ≤ k ∧ ∃ u' ∈ S, ∃ h', u'.val = some (k, h') := by
  intro d
  induction d with
  | zero => intro j hd hj _; omega
  | succ d ih =>
    intro j hd hj hlev
    rcases inv.comp j hj with h | h | h
    · obtain ⟨k0, hk1, hk2, hk3⟩ := h
      obtain ⟨k, hk, hmem⟩ := ih k0 (by omega) hk2 (by omega)
      exact ⟨k, by omega, hmem⟩
    · obtain ⟨u', hu', h', huv⟩ := h
      exact ⟨j, le_refl j, u', hu', h', huv⟩
    · obtain ⟨l', hl', hle⟩ := h
      have hll : l = l' := Option.some.inj hl'
      omega

theorem nps_of_stack (hs : List Heading) (i l : Nat)
    (S : List (Tree (Option (Nat × Heading))))
    (inv : StackInvP hs i (some l) S)
    (u : Tree (Option (Nat × Heading))) (hu : S.head? = some u)
    (hul : idxLevel u.val < l) (hli : levelAt hs i = l) :
    (u.val = none → NPS (hs.map (fun x => x.level)) i = none) ∧
    (∀ js h, u.val = some (js, h) → NPS (hs.map (fun x => x.level)) i = some js) := by
  cases S with
  | nil => cases hu
  | cons a tail =>
    have hau : a = u := by simpa using hu
    subst hau
    constructor
    · intro hnone
      have htail : tail = [] := by
        cases tail with
        | nil => rfl
        | cons t ts =>
          obtain ⟨j, h, hj⟩ := inv.uppersSome a (by simp [List.dropLast])
          rw [hnone] at hj
          cases hj
      subst htail
      unfold NPS
      apply filter_range_getLast?_none
      intro j hj
      rw [decide_eq_false_iff_not]
      intro hp'
      have hpl : levelAt hs j < l := by rw [← hli]; exact hp'
      obtain ⟨k, hk, u', hu', h', huv⟩ :=
        stack_covers hs i l [a] inv (i - j) j (le_refl _) hj hpl
      have hua : u' = a := by simpa using hu'
      rw [hua, hnone] at huv
      cases huv
    · intro js h huv
      obtain ⟨hget, hjsi, _⟩ := inv.wf a (List.mem_cons_self a tail) js h huv
      unfold NPS
      apply filter_range_getLast?_some _ i js hjsi
      · rw [decide_eq_true_eq]
        show levelAt hs js < levelAt hs i
        rw [levelAt_of_get? hs js h hget, hli]
        have hidx : idxLevel a.val = h.level := by rw [huv]; rfl
        omega
      · intro j hj1 hj2
        rw [decide_eq_false_iff_not]
        intro hp'
        have hpl : levelAt hs j < l := by rw [← hli]; exact hp'
        obtain ⟨k, hk, u', hu', h', huv'⟩ :=
          stack_covers hs i l (a :: tail) inv (i - j) j (le_refl _) hj2 hpl
        rcases List.mem_cons.mp hu' with rfl | htail2
        · rw [huv] at huv'
          have hkjs : js = k := by
            have := Option.some.inj huv'
            exact congrArg Prod.fst this
          omega
        · have hpair := (List.pairwise_cons.mp inv.uppers).1 u' htail2
          obtain ⟨j2, h2, hv2, hlt⟩ := hpair.2 k h' huv'
          rw [huv] at hv2
          have hjs2 : js = j2 := by
            have := Option.some.inj hv2
            exact congrArg Prod.fst this
          omega


theorem stackInv_step (hs : List Heading) (i : Nat) (h : Heading)
    (hget : hs.get? i = some h) (hlev : 1 ≤ h.level)
    (S : List (Tree (Option (Nat × Heading))))
    (inv : StackInvP hs i none S) :
    ∃ S', stepTree idxLevel S (some (i, h)) = some S' ∧
      StackInvP hs (i + 1) none S' := by
  have hli : levelAt hs i = h.level := levelAt_of_get? hs i h hget
  have inv' := stackInvP_weaken hs i h.level S inv
  obtain ⟨S₁, hpop, hinv₁, htop⟩ :=
    popAttach_inv hs i h.level hlev S.length S (le_refl _) inv'
  cases S₁ with
  | nil => exact absurd rfl hinv₁.nonempty
  | cons u₀ tl =>
    have hu₀l : idxLevel u₀.val < h.level := htop u₀ rfl
    have nps := nps_of_stack hs i h.level (u₀ :: tl) hinv₁ u₀ rfl hu₀l hli
    refine ⟨Tree.node (some (i, h)) [] :: u₀ :: tl, ?_, ?_⟩
    · unfold stepTree
      have hidx : idxLevel (some (i, h)) = h.level := rfl
      rw [hidx, hpop]
    · refine ⟨by simp, ?_, ?_, ?_, ?_, ?_, ?_, ?_⟩
      · rw [List.getLast?_cons_cons]
        exact hinv₁.bottomRoot
      · intro u hu
        rw [List.dropLast_cons₂, List.mem_cons] at hu
        rcases hu with hu | hu
        · exact ⟨i, h, by subst hu; rfl⟩
        · exact hinv₁.uppersSome u hu
      · rw [List.chain'_cons']
        refine ⟨?_, hinv₁.chain⟩
        intro y hy
        have hyu : u₀ = y := by simpa using hy
        subst hyu
        show C7Rel hs u₀.val (some (i, h))
        cases hv : u₀.val with
        | none =>
          exact ⟨hget, nps.1 hv, hlev⟩
        | some p =>
          obtain ⟨j, g⟩ := p
          obtain ⟨hgj, _, _⟩ := hinv₁.wf u₀ (List.mem_cons_self u₀ tl) j g hv
          have hgl : idxLevel u₀.val = g.level := by rw [hv]; rfl
          exact ⟨hget, hgj, by omega, nps.2 j g hv⟩
      · rw [List.pairwise_cons]
        refine ⟨?_, hinv₁.uppers⟩
        intro b hb
        have hbl : idxLevel b.val < h.level := by
          rcases List.mem_cons.mp hb with hb | hb
          · rw [hb]; exact hu₀l
          · have := ((List.pairwise_cons.mp hinv₁.uppers).1 b hb).1
            omega
        refine ⟨hbl, ?_⟩
        intro j g hjv
        have hji := (hinv₁.wf b hb j g hjv).2.1
        exact ⟨i, h, rfl, hji⟩
      · intro u hu
        rcases List.mem_cons.mp hu with hu | hu
        · rw [hu]
          exact PairsOK.node _ [] (by intro c hc; cases hc) (by intro c hc; cases hc)
        · exact hinv₁.pairs u hu
      · intro u hu j g hjv
        rcases List.mem_cons.mp hu with hu | hu
        · rw [hu] at hjv
          have hjv' : some (i, h) = some (j, g) := hjv
          have hpair := Option.some.inj hjv'
          have hij : i = j := congrArg Prod.fst hpair
          have hhg : h = g := congrArg Prod.snd hpair
          subst hij
          subst hhg
          exact ⟨hget, by omega, by intro k hk1 hk2; omega⟩
        · obtain ⟨hg1, hg2, hg3⟩ := hinv₁.wf u hu j g hjv
          have hul2 : idxLevel u.val < h.level := by
            rcases List.mem_cons.mp hu with hu2 | hu2
            · rw [hu2]; exact hu₀l
            · have := ((List.pairwise_cons.mp hinv₁.uppers).1 u hu2).1
              omega
          refine ⟨hg1, by omega, ?_⟩
          intro k hk1 hk2
          rcases Nat.lt_or_ge k i with hk | hk
          · exact hg3 k hk1 hk
          · have hki : k = i := by omega
            rw [hki, hli]
            have hgl : idxLevel u.val = g.level := by rw [hjv]; rfl
            omega
      · intro j hj
        rcases Nat.lt_or_ge j i with hji | hji
        · rcases hinv₁.comp j hji with hc | hc | hc
          · obtain ⟨k, hk1, hk2, hk3⟩ := hc
            exact Or.inl ⟨k, hk1, by omega, hk3⟩
          · obtain ⟨u, hu, g, hg⟩ := hc
            exact Or.inr (Or.inl ⟨u, List.mem_cons_of_mem _ hu, g, hg⟩)
          · obtain ⟨l', hl', hle⟩ := hc
            have hll : h.level = l' := Option.some.inj hl'
            refine Or.inl ⟨i, hji, by omega, ?_⟩
            rw [hli]
            omega
        · have hji' : j = i := by omega
          subst hji'
          exact Or.inr (Or.inl ⟨Tree.node (some (j, h)) [], by simp, h, rfl⟩)


theorem foldStack_inv (hs : List Heading) (hall : ∀ x ∈ hs, 1 ≤ x.level) :
    ∀ (tl : List (Nat × Heading)) (i : Nat)
      (S : List (Tree (Option (Nat × Heading)))),
      hs.enum.drop i = tl → i ≤ hs.length → StackInvP hs i none S →
      ∃ S', foldStack idxLevel (tl.map some) S = some S' ∧
        StackInvP hs hs.length none S' := by
  intro tl
  induction tl with
  | nil =>
    intro i S hdrop hge inv
    have hlen : hs.length ≤ i := by
      have h1 := List.drop_eq_nil_iff.mp hdrop
      rwa [List.enum_length] at h1
    have hieq : i = hs.length := by omega
    rw [← hieq]
    exact ⟨S, rfl, hieq ▸ inv⟩
  | cons p tl' ih =>
    intro i S hdrop hge inv
    obtain ⟨idx, h⟩ := p
    have h1 : hs.enum.get? i = some (idx, h) := by
      have h2 := List.get?_drop hs.enum i 0
      rw [hdrop] at h2
      simpa using h2.symm
    rw [List.enum_get?] at h1
    have hget2 : hs.get? i = some h := by
      cases hg : hs.get? i with
      | none => rw [hg] at h1; cases h1
      | some a =>
        rw [hg] at h1
        have := Option.some.inj h1
        have ha : a = h := congrArg Prod.snd this
        rw [ha]
    have hidx : idx = i := by
      rw [hget2] at h1
      exact (congrArg Prod.fst (Option.some.inj h1)).symm
    subst hidx
    have hdrop' : hs.enum.drop (idx + 1) = tl' := by
      have h3 := List.drop_drop 1 idx hs.enum
      rw [hdrop] at h3
      have h4 : List.drop 1 ((idx, h) :: tl') = tl' := rfl
      rw [h4] at h3
      exact h3.symm
    have hlev1 : 1 ≤ h.level := hall h (List.get?_mem hget2)
    have hlti : idx < hs.length := (List.get?_eq_some.mp hget2).1
    obtain ⟨S₁, hstep, hinv₁⟩ := stackInv_step hs idx h hget2 hlev1 S inv
    obtain ⟨S', hfold, hinv'⟩ := ih (idx + 1) S₁ hdrop' (by omega) hinv₁
    refine ⟨S', ?_, hinv'⟩
    simp only [List.map_cons, foldStack]
    rw [hstep]
    exact hfold


theorem collapseStack_pairs {α : Type} (R : α → α → Prop) :
    ∀ (n : Nat) (S : List (Tree α)), S.length ≤ n →
      List.Chain' (fun a b => R b.val a.val) S →
      (∀ u ∈ S, PairsOK R u) →
      ∀ t, collapseStack S = some t → PairsOK R t := by
  intro n
  induction n with
  | zero =>
    intro S hlen hch hp t ht
    cases S with
    | nil => simp [collapseStack] at ht
    | cons a rest => simp at hlen
  | succ n ih =>
    intro S hlen hch hp t ht
    cases S with
    | nil => simp [collapseStack] at ht
    | cons a rest =>
      cases rest with
      | nil =>
        have hat : a = t := by simpa [collapseStack] using ht
        rw [← hat]
        exact hp a (List.mem_cons_self a [])
      | cons b rest2 =>
        have hstep : collapseStack (a :: b :: rest2) =
            collapseStack (b.addChild a :: rest2) := by
          rw [collapseStack]
        rw [hstep] at ht
        have hlink : R b.val a.val := by
          have := (List.chain'_cons'.mp hch).1 b (by simp)
          exact this
        refine ih (b.addChild a :: rest2) (by simp at hlen ⊢; omega) ?_ ?_ t ht
        · rw [List.chain'_cons']
          constructor
          · intro y hy
            show R y.val (b.addChild a).val
            rw [tree_val_addChild]
            exact (List.chain'_cons'.mp (List.chain'_cons'.mp hch).2).1 y hy
          · exact (List.chain'_cons'.mp (List.chain'_cons'.mp hch).2).2
        · intro u hu
          rcases List.mem_cons.mp hu with hu | hu
          · rw [hu]
            exact pairsOK_addChild R b a (hp b (by simp)) (hp a (by simp)) hlink
          · exact hp u (by simp [hu])


/-- C7: for every heading list whose levels are all at least 1 (as
`extract_headings` guarantees), `build_tree` succeeds and in the resulting
tree every parent/child pair satisfies `C7Rel`: the child is a real input
heading, its parent's level is strictly smaller than its own, and the parent
is exactly the nearest preceding heading (in input order) with a strictly
smaller level — the ROOT is the parent exactly when no such heading exists.
Stated on the index-instrumented builder `buildTreeIdx`; the production
`buildTree` result is its image under `Tree.map eraseIdx`. -/
theorem c7_tree_parent_nearest (hs : List Heading)
    (hall : ∀ x ∈ hs, 1 ≤ x.level) :
    ∃ t, buildTreeIdx hs = some t ∧
      buildTree hs = some (Tree.map eraseIdx t) ∧ PairsOK (C7Rel hs) t := by
  have inv0 : StackInvP hs 0 none [Tree.node none []] := by
    refine ⟨by simp, rfl, ?_, ?_, ?_, ?_, ?_, ?_⟩
    · intro u hu
      simp at hu
    · exact List.chain'_singleton _
    · exact List.pairwise_singleton _ _
    · intro u hu
      have hueq : u = Tree.node none [] := by simpa using hu
      rw [hueq]
      exact PairsOK.node _ [] (by intro c hc; cases hc) (by intro c hc; cases hc)
    · intro u hu j g hjv
      have hueq : u = Tree.node none [] := by simpa using hu
      rw [hueq] at hjv
      have h2 : (none : Option (Nat × Heading)) = some (j, g) := hjv
      exact Option.noConfusion h2
    · intro j hj
      omega
  obtain ⟨S', hfold, hinv'⟩ :=
    foldStack_inv hs hall hs.enum 0 [Tree.node none []] rfl (by omega) inv0
  rcases List.eq_nil_or_concat S' with hS | ⟨S0, r, hS⟩
  · exact absurd hS hinv'.nonempty
  · obtain ⟨t, hcol, hval⟩ := collapseStack_last S0.length S0 (le_refl _) r
    rw [List.concat_eq_append] at hS
    rw [← hS] at hcol
    have hidx : buildTreeIdx hs = some t := by
      unfold buildTreeIdx buildTreeG
      have hmap : hs.enum.map (fun p => some p) = List.map some hs.enum := rfl
      rw [hmap, hfold]
      exact hcol
    refine ⟨t, hidx, ?_, ?_⟩
    · rw [buildTree_eq_map_idx, hidx]
      rfl
    · exact collapseStack_pairs (C7Rel hs) S'.length S' (le_refl _)
        hinv'.chain hinv'.pairs t hcol

theorem c7_tree_parent_nearest_witness :
    (∀ x ∈ [({ title := "A", level := 1, page := 1, score := 0 } : Heading),
            { title := "B", level := 2, page := 1, score := 0 }], 1 ≤ x.level) ∧
    ∃ t, buildTreeIdx [({ title := "A", level := 1, page := 1, score := 0 } : Heading),
            { title := "B", level := 2, page := 1, score := 0 }] = some t ∧
      buildTree [({ title := "A", level := 1, page := 1, score := 0 } : Heading),
            { title := "B", level := 2, page := 1, score := 0 }] =
        some (Tree.map eraseIdx t) ∧
      PairsOK (C7Rel [({ title := "A", level := 1, page := 1, score := 0 } : Heading),
            { title := "B", level := 2, page := 1, score := 0 }]) t :=
  ⟨by decide, c7_tree_parent_nearest _ (by decide)⟩

end SpringChat
